import Mathlib

/-!
# joy_os: the framebuffer text engine of `src/kernel.c`

A shallow embedding of `putchar`, `puts`, the rendering call of `kmain`, `memmove` and
the pixel helpers of `src/kernel.c`, followed by theorems about them.

Conventions of the embedding.

* `size_t` values (cursor, loop counters, `pitch`, `height`, pixel indices) are
  natural numbers.  Sums and products are exact: a sum of the source leaves the
  64-bit range only for a cursor or a surface beyond `2^63`, far outside every
  frame buffer that fits in memory.  Subtraction is the one operation that leaves
  the range on small values (`y - 1` at `y = 0`), so it wraps as in C (`size_sub`).
* A pixel is a `uint32_t`; the product `WHITE * sample` stays below `2^32` for every
  sample up to 256 and is kept exact as well.
* The pixel memory behind `framebuffer->address` is a total map from the flat
  pixel index (in units of `uint32_t`) to the pixel value; whether an index lies
  inside the surface is a separate property.
* `charmap.h` and `limine.h` are not part of the sources at hand: the glyph atlas
  (`CHARACTER_WIDTH`, `CHARACTER_HEIGHT`, `charmap`) and the two fields of the
  frame buffer descriptor that the engine reads are parameters.
* A `char` is an integer, so that the signed and the unsigned reading of a byte
  are both covered.
-/

namespace JoyOS

/-! ## Data model -/

/-- The declarations of `charmap.h` used by `putchar`: the native glyph size and
the table of samples, `charmap g k` standing for `charmap[g][k]`. -/
structure Charmap where
  CHARACTER_WIDTH : Nat
  CHARACTER_HEIGHT : Nat
  charmap : Nat → Nat → Nat

/-- The fields of `struct limine_framebuffer` read by the engine (the pixel memory
behind `address` is part of `State`). -/
structure limine_framebuffer where
  pitch : Nat
  height : Nat

/-- The mutable state: the global cursor `x`, `y` and the pixel memory. -/
structure State where
  x : Nat
  y : Nat
  mem : Nat → Nat

/-- The state at boot: `volatile size_t x = 1, y = 1;` over a given pixel memory. -/
def State.init (mem : Nat → Nat) : State := ⟨1, 1, mem⟩

/-- `const Color WHITE = 0xFFFFFF;` -/
def WHITE : Nat := 0xFFFFFF

/-- Difference of two `size_t` values, wrapping below zero. -/
def size_sub (a b : Nat) : Nat := if b ≤ a then a - b else 2 ^ 64 - (b - a)

/-- A counted loop `for (size_t i = 0; i < n; i++) s = body i s`. -/
def loop {α : Type} (body : Nat → α → α) : Nat → α → α
  | 0, s => s
  | n + 1, s => body n (loop body n s)

/-- The store `p[idx] = v` on the pixel memory. -/
def store (mem : Nat → Nat) (idx v : Nat) : Nat → Nat :=
  fun k => if k = idx then v else mem k

/-- The element index of `pixel_address(framebuffer, x, y)` from `framebuffer->address`. -/
def pixel_address (fb : limine_framebuffer) (x y : Nat) : Nat :=
  y * (fb.pitch / 4) + x

/-- The pixel memory after `draw_pixel(framebuffer, x, y, color)`. -/
def draw_pixel (fb : limine_framebuffer) (x y color : Nat) (mem : Nat → Nat) : Nat → Nat :=
  store mem (pixel_address fb x y) color

/-- `const size_t character_height = 20;` -/
def character_height : Nat := 20

/-- `const size_t character_width = character_height * CHARACTER_WIDTH / CHARACTER_HEIGHT;` -/
def character_width (a : Charmap) : Nat :=
  character_height * a.CHARACTER_WIDTH / a.CHARACTER_HEIGHT

/-- `const size_t character_margin = 4;` -/
def character_margin : Nat := 4

/-- The index into `charmap[c - 32]` used for the destination pixel `(i, j)`. -/
def sample_index (a : Charmap) (i j : Nat) : Nat :=
  (i * a.CHARACTER_HEIGHT / character_height * a.CHARACTER_WIDTH)
    + j * a.CHARACTER_WIDTH / character_width a

/-- The two nested loops of the printable branch of `putchar`: the pixel memory
after the glyph of `c` has been drawn at the cursor of `s`. -/
def draw_glyph (fb : limine_framebuffer) (a : Charmap) (c : Int) (s : State) : Nat → Nat :=
  loop (fun i mem =>
      let row := pixel_address fb 0 (s.y + i)
      loop (fun j mem =>
          store mem (row + (s.x + j))
            (WHITE * a.charmap (c - 32).toNat (sample_index a i j)))
        (character_width a) mem)
    character_height s.mem

/-- The copy loop of the scroll branch:
`for (i = 0; i < bound; i++) framedata[i] = framedata[i + line_size];` -/
def scroll_copy (line_size bound : Nat) (mem : Nat → Nat) : Nat → Nat :=
  loop (fun i mem => store mem i (mem (i + line_size))) bound mem

/-- The function `putchar` of `src/kernel.c`. -/
def putchar (fb : limine_framebuffer) (a : Charmap) (c : Int) (s : State) : State :=
  if _h : 32 ≤ c ∧ c ≤ 42 then
    let s1 : State :=
      { s with mem := draw_glyph fb a c s
               x := s.x + (character_width a + character_margin) }
    if s1.x + character_width a > fb.pitch / 4 then
      putchar fb a 10 s1
    else s1
  else if c = 13 then
    { s with x := 1 }
  else if c = 10 then
    let s1 : State :=
      if s.y + character_height * 2 + character_margin < fb.height then
        { s with y := s.y + (character_height + character_margin) }
      else
        let line_width := fb.pitch / 4
        let line_height := character_height + character_margin
        let line_size := line_width * line_height
        { s with mem := scroll_copy line_size (size_sub s.y 1 * line_width) s.mem }
    { s1 with x := 1 }
  else if c = 8 ∧ s.x > character_width a + character_margin then
    { s with x := size_sub s.x (character_width a + character_margin) }
  else s
termination_by (if 32 ≤ c ∧ c ≤ 42 then 1 else 0)
decreasing_by simp [_h]

/-- The loop of `puts`, started at index `i` with `n` iterations left at most. -/
def puts_loop (fb : limine_framebuffer) (a : Charmap) (string : List Int) (length : Nat) :
    Nat → Nat → State → State
  | 0, _, s => s
  | n + 1, i, s =>
    if i < length ∧ string.getD i 0 ≠ 0 then
      puts_loop fb a string length n (i + 1) (putchar fb a (string.getD i 0) s)
    else s

/-- The function `puts` of `src/kernel.c`: the loop runs `length` times at most. -/
def puts (fb : limine_framebuffer) (a : Charmap) (string : List Int) (length : Nat)
    (s : State) : State :=
  puts_loop fb a string length length 0 s

/-- A counted loop running downwards: `for (size_t i = n; i > 0; i--) s = body i s`. -/
def loop_down {α : Type} (body : Nat → α → α) : Nat → α → α
  | 0, s => s
  | n + 1, s => loop_down body n (body (n + 1) s)

/-- The function `memmove` of `src/kernel.c` on a byte memory given as a total map from
the address to the byte, with `dest` and `src` as addresses: the memory after the call
(the returned pointer is `dest`). -/
def memmove (dest src n : Nat) (mem : Nat → Nat) : Nat → Nat :=
  if src > dest then
    loop (fun i m => store m (dest + i) (m (src + i))) n mem
  else if src < dest then
    loop_down (fun i m => store m (dest + size_sub i 1) (m (src + size_sub i 1))) n mem
  else mem

/-! ## Auxiliary definitions used in the statements -/

/-- The state inside the printable branch of `putchar` once the glyph has been
drawn and `x += character_width + character_margin` has been executed. -/
def after_glyph (fb : limine_framebuffer) (a : Charmap) (c : Int) (s : State) : State :=
  { s with mem := draw_glyph fb a c s
           x := s.x + (character_width a + character_margin) }

/-- The value stored for the destination pixel `(i, j)` of the glyph of `c`:
`WHITE * charmap[c - 32][...]`. -/
def glyph_pixel (a : Charmap) (c : Int) (i j : Nat) : Nat :=
  WHITE * a.charmap (c - 32).toNat (sample_index a i j)

/-- The state after `putchar` has been applied to the bytes of a list, in order. -/
def run (fb : limine_framebuffer) (a : Charmap) (bytes : List Int) (s : State) : State :=
  bytes.foldl (fun st c => putchar fb a c st) s

/-- The index at which rendering of `string` with length `n` stops, in the words of
the specification: `k` is the smallest index `< n` with `string[k] = 0`, or `k = n`
if there is none. -/
def is_stop_index (string : List Int) (n k : Nat) : Prop :=
  (k < n ∧ string.getD k 0 = 0 ∧ ∀ i, i < k → string.getD i 0 ≠ 0)
    ∨ (k = n ∧ ∀ i, i < n → string.getD i 0 ≠ 0)

instance (string : List Int) (n k : Nat) : Decidable (is_stop_index string n k) := by
  unfold is_stop_index
  infer_instance

/-- The states the engine can be in: those obtained from the boot cursor `(1, 1)`,
over any pixel memory, by feeding any byte sequence through `putchar`. -/
def Reachable (fb : limine_framebuffer) (a : Charmap) (s : State) : Prop :=
  ∃ mem bytes, s = run fb a bytes (State.init mem)

/-- The column invariant of the engine: the cursor is at the left margin or the
cell at the cursor fits in the surface width. -/
def column_fits (fb : limine_framebuffer) (a : Charmap) (s : State) : Prop :=
  s.x = 1 ∨ s.x + character_width a ≤ fb.pitch / 4

/-! ## Concrete surfaces, atlases and states used to evaluate the code -/

/-- A surface one pixel wide (`pitch = 4`) and 100 rows high. -/
def narrow_fb : limine_framebuffer := ⟨4, 100⟩

/-- A surface 20 pixels wide (`pitch = 80`) and 100 rows high. -/
def wide_fb : limine_framebuffer := ⟨80, 100⟩

/-- An atlas of native size 2 x 20 (so `character_width = 2`) all of whose glyphs
have the sample at index 1 set and every other sample clear. -/
def dot_atlas : Charmap := ⟨2, 20, fun _ k => if k = 1 then 1 else 0⟩

/-- The boot cursor over an all-zero pixel memory. -/
def blank : State := State.init (fun _ => 0)

/-- A surface one pixel wide (`pitch = 4`) and 10 rows high: too low for a second
text line. -/
def low_fb : limine_framebuffer := ⟨4, 10⟩

/-- The cursor after two glyphs of width 2 have been printed from the boot cursor
(`x = 1 + 2 * (2 + 4)`), over an all-zero pixel memory. -/
def third_cell : State := ⟨13, 1, fun _ => 0⟩

/-- A surface 8 pixels wide (`pitch = 32`) and 30 rows high: room for one text line
only. -/
def one_line_fb : limine_framebuffer := ⟨32, 30⟩

/-- A surface 8 pixels wide (`pitch = 32`) and 60 rows high: room for two text lines. -/
def two_line_fb : limine_framebuffer := ⟨32, 60⟩

/-- The cursor at the start of the second text line (`y = 25`) over the pixel memory
in which cell `k` holds the value `k`. -/
def ramp_row25 : State := ⟨1, 25, fun k => k⟩

/-- The wrap test of the printable branch (`x + character_width > pitch / 4` after the
column has been advanced): whether `putchar(c)` in state `s` calls `putchar('\n')`. -/
def triggers_wrap (fb : limine_framebuffer) (a : Charmap) (c : Int) (s : State) : Prop :=
  32 ≤ c ∧ c ≤ 42 ∧ (after_glyph fb a c s).x + character_width a > fb.pitch / 4

instance (fb : limine_framebuffer) (a : Charmap) (c : Int) (s : State) :
    Decidable (triggers_wrap fb a c s) := by
  unfold triggers_wrap
  infer_instance

/-- The number of implicit newlines triggered while the bytes of a list are fed
through `putchar`, in order, from state `s`. -/
def wrap_count (fb : limine_framebuffer) (a : Charmap) : List Int → State → Nat
  | [], _ => 0
  | c :: rest, s =>
    (if triggers_wrap fb a c s then 1 else 0) + wrap_count fb a rest (putchar fb a c s)

/-- A surface exactly one advance of the 2-pixel glyph wide (`pitch / 4 = 2 + 4`) and
100 rows high. -/
def one_cell_fb : limine_framebuffer := ⟨24, 100⟩

/-- `const char message[] = "!\r! \"#$%&'()*\b*+!";` of `kmain`, with its terminating
null byte. -/
def message : List Int :=
  [33, 13, 33, 32, 34, 35, 36, 37, 38, 39, 40, 41, 42, 8, 42, 43, 33, 0]

/-- The rendering done by `kmain` once the frame buffer has been fetched:
`puts(framebuffer, message, sizeof(message) - 1)` from the boot cursor. -/
def kmain (fb : limine_framebuffer) (a : Charmap) (mem : Nat → Nat) : State :=
  puts fb a message (message.length - 1) (State.init mem)

/-- The cursor stands at the origin of cell number `k` of the first text line. -/
def at_cell (a : Charmap) (k : Nat) (s : State) : Prop :=
  s.x = 1 + k * (character_width a + character_margin) ∧ s.y = 1

/-- The row invariant of the engine: the cursor is on the first text line or the
cell at the cursor ends above the last row of the surface. -/
def row_fits (fb : limine_framebuffer) (s : State) : Prop :=
  s.y = 1 ∨ s.y + character_height < fb.height

/-- A surface one pixel wide (`pitch = 4`) and 46 rows high: room for two text lines
and one more row. -/
def short_fb : limine_framebuffer := ⟨4, 46⟩

/-! ## Basic facts about the helpers -/

theorem size_sub_of_le {a b : Nat} (h : b ≤ a) : size_sub a b = a - b := by
  simp [size_sub, h]

theorem store_same (mem : Nat → Nat) (idx v : Nat) : store mem idx v idx = v := by
  simp [store]

theorem store_other (mem : Nat → Nat) {idx k : Nat} (v : Nat) (h : k ≠ idx) :
    store mem idx v k = mem k := by
  simp [store, h]

/-- The scroll copy reads ahead of what it writes: cell `k` below the bound ends
with the old content of cell `k + line_size`, every other cell is untouched. -/
theorem scroll_copy_apply (line_size bound : Nat) (mem : Nat → Nat) (k : Nat) :
    scroll_copy line_size bound mem k = if k < bound then mem (k + line_size) else mem k := by
  induction bound generalizing k with
  | zero => simp [scroll_copy, loop]
  | succ n ih =>
    have hstep : scroll_copy line_size (n + 1) mem
        = store (scroll_copy line_size n mem) n (scroll_copy line_size n mem (n + line_size)) := rfl
    rw [hstep]
    by_cases hk : k = n
    · subst hk
      rw [store_same, ih]
      have h1 : ¬ (k + line_size < k) := by omega
      simp [h1]
    · rw [store_other _ _ hk, ih]
      by_cases hlt : k < n
      · have : k < n + 1 := by omega
        simp [hlt, this]
      · have : ¬ (k < n + 1) := by omega
        simp [hlt, this]

/-! ## The branches of `putchar` -/

theorem putchar_lf (fb : limine_framebuffer) (a : Charmap) (s : State) :
    putchar fb a 10 s =
      if s.y + character_height * 2 + character_margin < fb.height then
        { s with y := s.y + (character_height + character_margin), x := 1 }
      else
        { s with mem := scroll_copy (fb.pitch / 4 * (character_height + character_margin))
                          (size_sub s.y 1 * (fb.pitch / 4)) s.mem
                 x := 1 } := by
  rw [putchar]
  simp only [show ¬ ((32 : Int) ≤ 10 ∧ (10 : Int) ≤ 42) by decide, dite_false,
    show ¬ ((10 : Int) = 13) by decide, if_false, if_true]
  split <;> rfl

theorem putchar_cr (fb : limine_framebuffer) (a : Charmap) (s : State) :
    putchar fb a 13 s = { s with x := 1 } := by
  rw [putchar]
  simp

theorem putchar_bs (fb : limine_framebuffer) (a : Charmap) (s : State) :
    putchar fb a 8 s =
      if s.x > character_width a + character_margin then
        { s with x := size_sub s.x (character_width a + character_margin) }
      else s := by
  rw [putchar]
  simp

theorem putchar_printable (fb : limine_framebuffer) (a : Charmap) (c : Int) (s : State)
    (h1 : 32 ≤ c) (h2 : c ≤ 42) :
    putchar fb a c s =
      if (after_glyph fb a c s).x + character_width a > fb.pitch / 4 then
        putchar fb a 10 (after_glyph fb a c s)
      else after_glyph fb a c s := by
  rw [putchar]
  simp only [h1, h2, and_self, dite_true]
  rfl

/-- A printable character whose successor cell still fits does not wrap. -/
theorem putchar_no_wrap (fb : limine_framebuffer) (a : Charmap) (c : Int) (s : State)
    (h1 : 32 ≤ c) (h2 : c ≤ 42)
    (hfit : (after_glyph fb a c s).x + character_width a ≤ fb.pitch / 4) :
    putchar fb a c s = after_glyph fb a c s := by
  rw [putchar_printable fb a c s h1 h2, if_neg (Nat.not_lt.mpr hfit)]

theorem putchar_other (fb : limine_framebuffer) (a : Charmap) (c : Int) (s : State)
    (h1 : ¬ (32 ≤ c ∧ c ≤ 42)) (h2 : c ≠ 13) (h3 : c ≠ 10) (h4 : c ≠ 8) :
    putchar fb a c s = s := by
  rw [putchar]
  simp [h1, h2, h3, h4]


/-! ## Nested store loops -/

/-- A loop of stores leaves alone every cell that is none of its targets. -/
theorem loop_store_frame (g f : Nat → Nat) (n : Nat) (mem : Nat → Nat) (k : Nat)
    (hk : ∀ j, j < n → k ≠ g j) :
    loop (fun j m => store m (g j) (f j)) n mem k = mem k := by
  induction n with
  | zero => rfl
  | succ n ih =>
    show store (loop (fun j m => store m (g j) (f j)) n mem) (g n) (f n) k = mem k
    rw [store_other _ _ (hk n (Nat.lt_succ_self n))]
    exact ih (fun j hj => hk j (Nat.lt_succ_of_lt hj))

/-- A loop of stores with pairwise distinct targets leaves `f j` in target `g j`. -/
theorem loop_store_hit (g f : Nat → Nat) (n : Nat) (mem : Nat → Nat) (j : Nat)
    (hj : j < n) (hinj : ∀ j2, j2 < n → g j2 = g j → j2 = j) :
    loop (fun j m => store m (g j) (f j)) n mem (g j) = f j := by
  induction n with
  | zero => omega
  | succ n ih =>
    show store (loop (fun j m => store m (g j) (f j)) n mem) (g n) (f n) (g j) = f j
    by_cases hjn : j = n
    · subst hjn
      exact store_same _ _ _
    · have hne : g j ≠ g n := fun h => hjn ((hinj n (Nat.lt_succ_self n) h.symm).symm)
      rw [store_other _ _ hne]
      exact ih (by omega) (fun j2 hj2 h => hinj j2 (Nat.lt_succ_of_lt hj2) h)

/-- Two nested loops of stores leave alone every cell that is none of their targets. -/
theorem loop2_store_frame (idx f : Nat → Nat → Nat) (n m : Nat) (mem : Nat → Nat) (k : Nat)
    (hk : ∀ i j, i < n → j < m → k ≠ idx i j) :
    loop (fun i mem1 => loop (fun j mem2 => store mem2 (idx i j) (f i j)) m mem1) n mem k
      = mem k := by
  induction n with
  | zero => rfl
  | succ n ih =>
    show loop (fun j mem2 => store mem2 (idx n j) (f n j)) m
        (loop (fun i mem1 => loop (fun j mem2 => store mem2 (idx i j) (f i j)) m mem1) n mem) k
      = mem k
    rw [loop_store_frame (idx n) (f n) m _ k (fun j hj => hk n j (Nat.lt_succ_self n) hj)]
    exact ih (fun i j hi hj => hk i j (Nat.lt_succ_of_lt hi) hj)

/-- Two nested loops of stores with pairwise distinct targets leave `f i j` in
target `idx i j`. -/
theorem loop2_store_hit (idx f : Nat → Nat → Nat) (n m : Nat) (mem : Nat → Nat) (i j : Nat)
    (hi : i < n) (hj : j < m)
    (hinj : ∀ i2 j2, i2 < n → j2 < m → idx i2 j2 = idx i j → i2 = i ∧ j2 = j) :
    loop (fun i mem1 => loop (fun j mem2 => store mem2 (idx i j) (f i j)) m mem1) n mem
      (idx i j) = f i j := by
  induction n with
  | zero => omega
  | succ n ih =>
    show loop (fun j mem2 => store mem2 (idx n j) (f n j)) m
        (loop (fun i mem1 => loop (fun j mem2 => store mem2 (idx i j) (f i j)) m mem1) n mem)
        (idx i j) = f i j
    by_cases hin : i = n
    · subst hin
      exact loop_store_hit (idx i) (f i) m _ j hj
        (fun j2 hj2 h => (hinj i j2 (Nat.lt_succ_self i) hj2 h).2)
    · rw [loop_store_frame (idx n) (f n) m _ (idx i j)
        (fun j2 hj2 h => hin ((hinj n j2 (Nat.lt_succ_self n) hj2 h.symm).1).symm)]
      exact ih (by omega) (fun i2 j2 hi2 hj2 h => hinj i2 j2 (Nat.lt_succ_of_lt hi2) hj2 h)

/-! ## The glyph loops -/

theorem draw_glyph_eq (fb : limine_framebuffer) (a : Charmap) (c : Int) (s : State) :
    draw_glyph fb a c s =
      loop (fun i mem1 => loop (fun j mem2 =>
          store mem2 ((s.y + i) * (fb.pitch / 4) + 0 + (s.x + j)) (glyph_pixel a c i j))
        (character_width a) mem1) character_height s.mem := rfl

/-- Cells outside the glyph cell keep their content. -/
theorem draw_glyph_frame (fb : limine_framebuffer) (a : Charmap) (c : Int) (s : State) (k : Nat)
    (hk : ∀ i j, i < character_height → j < character_width a →
      k ≠ (s.y + i) * (fb.pitch / 4) + (s.x + j)) :
    draw_glyph fb a c s k = s.mem k := by
  rw [draw_glyph_eq]
  exact loop2_store_frame (fun i j => (s.y + i) * (fb.pitch / 4) + 0 + (s.x + j)) _ _ _ _ k
    (fun i j hi hj => by simpa using hk i j hi hj)

/-- The targets of the glyph loops are pairwise distinct on a surface that is at
least one glyph wide. -/
theorem glyph_index_inj (W cw x y i j i2 j2 : Nat) (hW : cw ≤ W) (hj : j < cw) (hj2 : j2 < cw)
    (h : (y + i2) * W + (x + j2) = (y + i) * W + (x + j)) : i2 = i ∧ j2 = j := by
  have hi : i2 = i := by
    rcases Nat.lt_trichotomy i2 i with hlt | heq | hgt
    · exfalso
      have h1 : (y + i2 + 1) * W ≤ (y + i) * W := Nat.mul_le_mul_right W (by omega)
      rw [Nat.add_mul] at h1
      omega
    · exact heq
    · exfalso
      have h1 : (y + i + 1) * W ≤ (y + i2) * W := Nat.mul_le_mul_right W (by omega)
      rw [Nat.add_mul] at h1
      omega
  subst hi
  exact ⟨rfl, by omega⟩

/-- On a surface at least one glyph wide, the glyph loops leave the sample of the
destination pixel `(i, j)` at flat index `(y + i) * W + (x + j)`. -/
theorem draw_glyph_hit (fb : limine_framebuffer) (a : Charmap) (c : Int) (s : State) (i j : Nat)
    (hW : character_width a ≤ fb.pitch / 4) (hi : i < character_height)
    (hj : j < character_width a) :
    draw_glyph fb a c s ((s.y + i) * (fb.pitch / 4) + (s.x + j)) = glyph_pixel a c i j := by
  rw [draw_glyph_eq]
  have := loop2_store_hit (fun i j => (s.y + i) * (fb.pitch / 4) + 0 + (s.x + j))
    (glyph_pixel a c) character_height (character_width a) s.mem i j hi hj
    (fun i2 j2 _ hj2 h =>
      glyph_index_inj (fb.pitch / 4) (character_width a) s.x s.y i j i2 j2 hW hj hj2
        (by simpa using h))
  simpa using this


/-! ## C1: glyph rasterisation -/

/-- C1, as stated, fails on a surface narrower than a glyph: with `W = 1` and
`character_width = 2` the destination pixels `(0, 1)` and `(1, 0)` share the flat
index 3, and the later store (sample clear) overwrites the earlier one (sample set). -/
theorem glyph_sampling_fails_when_surface_narrower_than_glyph :
    (32 : Int) ≤ 32 ∧ (32 : Int) ≤ 42 ∧ 0 < character_height ∧ 1 < character_width dot_atlas ∧
    (putchar narrow_fb dot_atlas 32 blank).mem
        ((blank.y + 0) * (narrow_fb.pitch / 4) + (blank.x + 1))
      ≠ 0xFFFFFF * dot_atlas.charmap (32 - 32 : Int).toNat
          ((0 * dot_atlas.CHARACTER_HEIGHT / character_height) * dot_atlas.CHARACTER_WIDTH
            + 1 * dot_atlas.CHARACTER_WIDTH / character_width dot_atlas) := by
  refine ⟨by decide, by decide, by decide, by decide, ?_⟩
  rw [putchar_printable _ _ _ _ (by decide) (by decide), if_pos (by decide),
    putchar_lf, if_pos (by decide)]
  exact (by decide :
    draw_glyph narrow_fb dot_atlas 32 blank 3
      ≠ 0xFFFFFF * dot_atlas.charmap (32 - 32 : Int).toNat
          ((0 * dot_atlas.CHARACTER_HEIGHT / character_height) * dot_atlas.CHARACTER_WIDTH
            + 1 * dot_atlas.CHARACTER_WIDTH / character_width dot_atlas))

/-- C1 (amended): on a surface at least one glyph wide (`character_width ≤ pitch / 4`)
and for a cursor row `y ≥ 1`, after `putchar(c)` with `c` in `32..42` the pixel at
flat index `(y + i) * W + (x + j)` equals
`0xFFFFFF * charmap[c - 32][(i * NH / ch) * NW + j * NW / cw]` for every `i < ch` and
`j < cw`, whether or not the character triggers a wrap or a scroll; in particular a
zero sample leaves the value 0 in the pixel. -/
theorem putchar_glyph_is_nearest_neighbour (fb : limine_framebuffer) (a : Charmap) (c : Int)
    (s : State) (i j : Nat) (hc1 : 32 ≤ c) (hc2 : c ≤ 42)
    (hW : character_width a ≤ fb.pitch / 4) (hy : 1 ≤ s.y)
    (hi : i < character_height) (hj : j < character_width a) :
    (putchar fb a c s).mem ((s.y + i) * (fb.pitch / 4) + (s.x + j))
        = 0xFFFFFF * a.charmap (c - 32).toNat
            ((i * a.CHARACTER_HEIGHT / character_height) * a.CHARACTER_WIDTH
              + j * a.CHARACTER_WIDTH / character_width a)
      ∧ (a.charmap (c - 32).toNat
            ((i * a.CHARACTER_HEIGHT / character_height) * a.CHARACTER_WIDTH
              + j * a.CHARACTER_WIDTH / character_width a) = 0 →
          (putchar fb a c s).mem ((s.y + i) * (fb.pitch / 4) + (s.x + j)) = 0) := by
  have key : (putchar fb a c s).mem ((s.y + i) * (fb.pitch / 4) + (s.x + j))
      = glyph_pixel a c i j := by
    rw [putchar_printable fb a c s hc1 hc2]
    split
    · rw [putchar_lf]
      split
      · exact draw_glyph_hit fb a c s i j hW hi hj
      · show scroll_copy _ _ (draw_glyph fb a c s) _ = _
        rw [scroll_copy_apply]
        have hyy : (after_glyph fb a c s).y = s.y := rfl
        rw [hyy, size_sub_of_le hy]
        have hle : (s.y - 1) * (fb.pitch / 4) ≤ (s.y + i) * (fb.pitch / 4) :=
          Nat.mul_le_mul_right _ (by omega)
        rw [if_neg (by omega)]
        exact draw_glyph_hit fb a c s i j hW hi hj
    · exact draw_glyph_hit fb a c s i j hW hi hj
  refine ⟨key, fun h0 => ?_⟩
  rw [key]
  show WHITE * a.charmap (c - 32).toNat (sample_index a i j) = 0
  have : sample_index a i j = (i * a.CHARACTER_HEIGHT / character_height) * a.CHARACTER_WIDTH
      + j * a.CHARACTER_WIDTH / character_width a := rfl
  rw [this, h0, Nat.mul_zero]

/-- C1 (amended), witness: code 33 at the boot cursor of a 20-pixel-wide surface,
destination pixel `(0, 1)`. -/
theorem putchar_glyph_is_nearest_neighbour_witness :
    (putchar wide_fb dot_atlas 33 blank).mem ((blank.y + 0) * (wide_fb.pitch / 4) + (blank.x + 1))
        = 0xFFFFFF * dot_atlas.charmap (33 - 32 : Int).toNat
            ((0 * dot_atlas.CHARACTER_HEIGHT / character_height) * dot_atlas.CHARACTER_WIDTH
              + 1 * dot_atlas.CHARACTER_WIDTH / character_width dot_atlas)
      ∧ (dot_atlas.charmap (33 - 32 : Int).toNat
            ((0 * dot_atlas.CHARACTER_HEIGHT / character_height) * dot_atlas.CHARACTER_WIDTH
              + 1 * dot_atlas.CHARACTER_WIDTH / character_width dot_atlas) = 0 →
          (putchar wide_fb dot_atlas 33 blank).mem
            ((blank.y + 0) * (wide_fb.pitch / 4) + (blank.x + 1)) = 0) :=
  putchar_glyph_is_nearest_neighbour wide_fb dot_atlas 33 blank 0 1
    (by decide) (by decide) (by decide) (by decide) (by decide) (by decide)


/-! ## C2: the wrap rule -/

/-- C2: for a supported code `c` in `32..42` and every state, if
`x + 2 * cw + m ≤ W` then `putchar(c)` ends with cursor `(x + cw + m, y)`; otherwise
its final state is exactly `putchar('\n')` applied to the state that has the glyph
drawn and column `x + cw + m` (whichever branch the line feed takes there). -/
theorem putchar_wrap_rule (fb : limine_framebuffer) (a : Charmap) (c : Int) (s : State)
    (hc1 : 32 ≤ c) (hc2 : c ≤ 42) :
    (s.x + 2 * character_width a + character_margin ≤ fb.pitch / 4 →
        (putchar fb a c s).x = s.x + character_width a + character_margin
          ∧ (putchar fb a c s).y = s.y)
      ∧ (¬ (s.x + 2 * character_width a + character_margin ≤ fb.pitch / 4) →
        putchar fb a c s
          = putchar fb a 10
              { x := s.x + character_width a + character_margin
                y := s.y
                mem := draw_glyph fb a c s }) := by
  have hx : (after_glyph fb a c s).x = s.x + (character_width a + character_margin) := rfl
  constructor
  · intro h
    rw [putchar_printable fb a c s hc1 hc2, if_neg (by rw [hx]; omega)]
    exact ⟨by rw [hx]; omega, rfl⟩
  · intro h
    rw [putchar_printable fb a c s hc1 hc2, if_pos (by rw [hx]; omega)]
    have : after_glyph fb a c s
        = { x := s.x + character_width a + character_margin
            y := s.y
            mem := draw_glyph fb a c s } := by
      simp [after_glyph, Nat.add_assoc]
    rw [this]

/-- C2, witness: code 33 at the boot cursor of the 20-pixel-wide surface. -/
theorem putchar_wrap_rule_witness :
    (blank.x + 2 * character_width dot_atlas + character_margin ≤ wide_fb.pitch / 4 →
        (putchar wide_fb dot_atlas 33 blank).x
            = blank.x + character_width dot_atlas + character_margin
          ∧ (putchar wide_fb dot_atlas 33 blank).y = blank.y)
      ∧ (¬ (blank.x + 2 * character_width dot_atlas + character_margin ≤ wide_fb.pitch / 4) →
        putchar wide_fb dot_atlas 33 blank
          = putchar wide_fb dot_atlas 10
              { x := blank.x + character_width dot_atlas + character_margin
                y := blank.y
                mem := draw_glyph wide_fb dot_atlas 33 blank }) :=
  putchar_wrap_rule wide_fb dot_atlas 33 blank (by decide) (by decide)

/-! ## C3: line feed with room below -/

/-- C3: for every state with `y + 2 * character_height + character_margin < height`,
`putchar('\n')` sets the row to `y + character_height + character_margin`, sets the
column to 1 and leaves every pixel unchanged. -/
theorem putchar_lf_with_room (fb : limine_framebuffer) (a : Charmap) (s : State)
    (h : s.y + 2 * character_height + character_margin < fb.height) :
    (putchar fb a 10 s).y = s.y + character_height + character_margin
      ∧ (putchar fb a 10 s).x = 1
      ∧ ∀ k, (putchar fb a 10 s).mem k = s.mem k := by
  rw [putchar_lf, if_pos (by rw [Nat.mul_comm]; exact h)]
  exact ⟨(Nat.add_assoc _ _ _).symm, rfl, fun _ => rfl⟩

/-- C3, witness: a line feed at the boot cursor of a surface 100 rows high. -/
theorem putchar_lf_with_room_witness :
    blank.y + 2 * character_height + character_margin < wide_fb.height
      ∧ (putchar wide_fb dot_atlas 10 blank).y = blank.y + character_height + character_margin
      ∧ (putchar wide_fb dot_atlas 10 blank).x = 1
      ∧ ∀ k, (putchar wide_fb dot_atlas 10 blank).mem k = blank.mem k :=
  ⟨by decide, putchar_lf_with_room wide_fb dot_atlas blank (by decide)⟩


/-! ## The scroll branch of the line feed -/

/-- The effect of the scroll branch of the line feed for a row `y ≥ 1`: row unchanged,
column 1, every flat index `i < (y - 1) * W` holds the old value of index
`i + W * (character_height + character_margin)`, every other index its old value; the
text line at the cursor keeps its pixels, and when a full text line lies above the
cursor they are found again one line higher. -/
theorem putchar_lf_scroll_effect (fb : limine_framebuffer) (a : Charmap) (s : State) (hy : 1 ≤ s.y)
    (h : fb.height ≤ s.y + 2 * character_height + character_margin) :
    (putchar fb a 10 s).y = s.y
      ∧ (putchar fb a 10 s).x = 1
      ∧ (∀ i, i < (s.y - 1) * (fb.pitch / 4) →
          (putchar fb a 10 s).mem i
            = s.mem (i + fb.pitch / 4 * (character_height + character_margin)))
      ∧ (∀ i, (s.y - 1) * (fb.pitch / 4) ≤ i → (putchar fb a 10 s).mem i = s.mem i)
      ∧ (∀ r k, r < character_height → k < fb.pitch / 4 →
          (putchar fb a 10 s).mem ((s.y + r) * (fb.pitch / 4) + k)
              = s.mem ((s.y + r) * (fb.pitch / 4) + k)
            ∧ (character_height + character_margin ≤ s.y →
                (putchar fb a 10 s).mem
                    ((s.y - (character_height + character_margin) + r) * (fb.pitch / 4) + k)
                  = s.mem ((s.y + r) * (fb.pitch / 4) + k))) := by
  have hmem : ∀ i, (putchar fb a 10 s).mem i
      = if i < (s.y - 1) * (fb.pitch / 4)
        then s.mem (i + fb.pitch / 4 * (character_height + character_margin))
        else s.mem i := by
    intro i
    rw [putchar_lf, if_neg (by rw [Nat.mul_comm]; omega)]
    show scroll_copy _ _ s.mem i = _
    rw [scroll_copy_apply, size_sub_of_le hy]
  have hxy : (putchar fb a 10 s).y = s.y ∧ (putchar fb a 10 s).x = 1 := by
    rw [putchar_lf, if_neg (by rw [Nat.mul_comm]; omega)]
    exact ⟨rfl, rfl⟩
  refine ⟨hxy.1, hxy.2, fun i hi => ?_, fun i hi => ?_, fun r k hr hk => ⟨?_, fun hfull => ?_⟩⟩
  · rw [hmem, if_pos hi]
  · rw [hmem, if_neg (Nat.not_lt.mpr hi)]
  · have hle : (s.y - 1) * (fb.pitch / 4) ≤ (s.y + r) * (fb.pitch / 4) :=
      Nat.mul_le_mul_right _ (by omega)
    have hn : ¬ ((s.y + r) * (fb.pitch / 4) + k < (s.y - 1) * (fb.pitch / 4)) := by omega
    rw [hmem, if_neg hn]
  · have hch : character_height = 20 := rfl
    have hcm : character_margin = 4 := rfl
    rw [hch] at hr
    rw [hch, hcm] at hfull ⊢
    have hle : (s.y - (20 + 4) + r + 1) * (fb.pitch / 4) ≤ (s.y - 1) * (fb.pitch / 4) :=
      Nat.mul_le_mul_right _ (by omega)
    rw [Nat.add_mul, Nat.one_mul] at hle
    have hrow : s.y + r = (s.y - (20 + 4) + r) + (20 + 4) := by omega
    have hsplit : (s.y + r) * (fb.pitch / 4)
        = (s.y - (20 + 4) + r) * (fb.pitch / 4) + fb.pitch / 4 * (20 + 4) := by
      rw [Nat.mul_comm (fb.pitch / 4) (20 + 4), ← Nat.add_mul, ← hrow]
    have hlt : (s.y - (20 + 4) + r) * (fb.pitch / 4) + k < (s.y - 1) * (fb.pitch / 4) := by
      omega
    have hline : character_height + character_margin = 20 + 4 := rfl
    rw [hmem, if_pos hlt, hsplit, hline]
    congr 1
    omega

/-! ## C5: backspace -/

/-- C5: `putchar('\b')` is a pure cursor move: if `x > character_width +
character_margin` the column becomes `x - (character_width + character_margin)`,
otherwise it is unchanged; the row and every pixel are unchanged in both cases. -/
theorem putchar_bs_is_cursor_move (fb : limine_framebuffer) (a : Charmap) (s : State) :
    (s.x > character_width a + character_margin →
        (putchar fb a 8 s).x = s.x - (character_width a + character_margin))
      ∧ (¬ (s.x > character_width a + character_margin) → (putchar fb a 8 s).x = s.x)
      ∧ (putchar fb a 8 s).y = s.y
      ∧ ∀ k, (putchar fb a 8 s).mem k = s.mem k := by
  rw [putchar_bs]
  by_cases h : s.x > character_width a + character_margin
  · rw [if_pos h]
    exact ⟨fun _ => size_sub_of_le (Nat.le_of_lt h), fun hn => absurd h hn, rfl, fun _ => rfl⟩
  · rw [if_neg h]
    exact ⟨fun hp => absurd hp h, fun _ => rfl, rfl, fun _ => rfl⟩

/-! ## C6: unsupported input -/

/-- C6: for every byte `c` outside `32..42` other than `'\r'`, `'\n'` and `'\b'`, and
every state, `putchar(c)` returns the state unchanged (column, row and pixel buffer),
and so does any number of repetitions. -/
theorem putchar_unsupported_is_inert (fb : limine_framebuffer) (a : Charmap) (c : Int) (s : State)
    (hrange : ¬ (32 ≤ c ∧ c ≤ 42)) (hcr : c ≠ 13) (hlf : c ≠ 10) (hbs : c ≠ 8) :
    putchar fb a c s = s ∧ ∀ n : Nat, (putchar fb a c)^[n] s = s := by
  have h := putchar_other fb a c s hrange hcr hlf hbs
  exact ⟨h, fun n => Function.iterate_fixed h n⟩

/-- C6, witness: the code 43 (`'+'`), printable but outside the atlas. -/
theorem putchar_unsupported_is_inert_witness :
    putchar wide_fb dot_atlas 43 blank = blank
      ∧ ∀ n : Nat, (putchar wide_fb dot_atlas 43)^[n] blank = blank :=
  putchar_unsupported_is_inert wide_fb dot_atlas 43 blank
    (by decide) (by decide) (by decide) (by decide)

/-! ## C7: `puts` -/

theorem exists_stop_index (string : List Int) (n : Nat) : ∃ k, is_stop_index string n k := by
  classical
  by_cases h : ∃ k, k < n ∧ string.getD k 0 = 0
  · refine ⟨Nat.find h, Or.inl ⟨(Nat.find_spec h).1, (Nat.find_spec h).2, fun i hi h0 => ?_⟩⟩
    exact Nat.find_min h hi ⟨Nat.lt_trans hi (Nat.find_spec h).1, h0⟩
  · exact ⟨n, Or.inr ⟨rfl, fun i hi h0 => h ⟨i, hi, h0⟩⟩⟩

theorem is_stop_index_le {string : List Int} {n k : Nat} (h : is_stop_index string n k) :
    k ≤ n := by
  rcases h with ⟨h, _, _⟩ | ⟨h, _⟩ <;> omega

theorem is_stop_index_nonzero {string : List Int} {n k : Nat} (h : is_stop_index string n k)
    {i : Nat} (hi : i < k) : string.getD i 0 ≠ 0 := by
  rcases h with ⟨_, _, h⟩ | ⟨hk, h⟩
  · exact h i hi
  · exact h i (hk ▸ hi)

theorem take_drop_cons (string : List Int) (k i : Nat) (hi : i < k) (hk : k ≤ string.length) :
    (string.take k).drop i = string.getD i 0 :: (string.take k).drop (i + 1) := by
  have hlen : i < (string.take k).length := by
    rw [List.length_take]
    omega
  rw [List.drop_eq_getElem_cons hlen]
  congr 1
  rw [List.getElem_take, List.getD_eq_getElem _ _ (by omega)]

theorem take_drop_self (string : List Int) (k : Nat) : (string.take k).drop k = [] :=
  List.drop_eq_nil_of_le (List.length_take_le k string)

/-- The loop of `puts`, started at an index `i` not beyond the stop index `k` with
enough iterations left, applies `putchar` to the bytes `i .. k` in order. -/
theorem puts_loop_eq (fb : limine_framebuffer) (a : Charmap) (string : List Int) (n k : Nat)
    (hk : is_stop_index string n k) (hn : n ≤ string.length) :
    ∀ (fuel i : Nat) (s : State), i ≤ k → n ≤ i + fuel →
      puts_loop fb a string n fuel i s = run fb a ((string.take k).drop i) s := by
  intro fuel
  induction fuel with
  | zero =>
    intro i s hik hfuel
    have hkn := is_stop_index_le hk
    have : i = k := by omega
    subst this
    rw [take_drop_self]
    rfl
  | succ fuel ih =>
    intro i s hik hfuel
    have hkn := is_stop_index_le hk
    by_cases hlt : i < k
    · have hnz := is_stop_index_nonzero hk hlt
      rw [puts_loop, if_pos ⟨by omega, hnz⟩, ih (i + 1) _ (by omega) (by omega),
        take_drop_cons string k i hlt (by omega)]
      rfl
    · have hik2 : i = k := by omega
      subst hik2
      have hstop : ¬ (i < n ∧ string.getD i 0 ≠ 0) := by
        rcases hk with ⟨_, h0, _⟩ | ⟨hkn2, _⟩
        · exact fun h => h.2 h0
        · exact fun h => by omega
      rw [puts_loop, if_neg hstop, take_drop_self]
      rfl


/-- C7: for every byte string, every length `n` not exceeding its size and every start
state, a stop index `k` exists (the smallest index `< n` holding a null byte, or `n`),
`puts(fb, string, n)` yields exactly the state obtained by applying `putchar` in order
to `string[0..k)`, and a string that agrees with it below `k` and stops at the same
index gives the same result, whatever its bytes from `k` on. -/
theorem puts_stops_at_null_or_length (fb : limine_framebuffer) (a : Charmap) (string : List Int)
    (n : Nat) (s : State) (hn : n ≤ string.length) :
    (∃ k, is_stop_index string n k)
      ∧ ∀ k, is_stop_index string n k →
          puts fb a string n s = (string.take k).foldl (fun st c => putchar fb a c st) s
            ∧ ∀ string2 : List Int, n ≤ string2.length → is_stop_index string2 n k →
                string2.take k = string.take k →
                puts fb a string2 n s = puts fb a string n s := by
  refine ⟨exists_stop_index string n, fun k hk => ?_⟩
  have h1 : puts fb a string n s = run fb a (string.take k) s :=
    puts_loop_eq fb a string n k hk hn n 0 s (Nat.zero_le k) (by omega)
  refine ⟨h1, fun string2 hn2 hk2 heq => ?_⟩
  have h2 : puts fb a string2 n s = run fb a (string2.take k) s :=
    puts_loop_eq fb a string2 n k hk2 hn2 n 0 s (Nat.zero_le k) (by omega)
  rw [h1, h2, heq]

/-- C7, witness: the three bytes `33, 0, 33` with length 3 stop at index 1. -/
theorem puts_stops_at_null_or_length_witness :
    (∃ k, is_stop_index [33, 0, 33] 3 k)
      ∧ ∀ k, is_stop_index [33, 0, 33] 3 k →
          puts wide_fb dot_atlas [33, 0, 33] 3 blank
              = (List.take k [33, 0, 33]).foldl (fun st c => putchar wide_fb dot_atlas c st) blank
            ∧ ∀ string2 : List Int, 3 ≤ string2.length → is_stop_index string2 3 k →
                string2.take k = List.take k [33, 0, 33] →
                puts wide_fb dot_atlas string2 3 blank
                  = puts wide_fb dot_atlas [33, 0, 33] 3 blank :=
  puts_stops_at_null_or_length wide_fb dot_atlas [33, 0, 33] 3 blank (by decide)

/-! ## C8: column advance -/

/-- C8, as stated for every state and surface width, fails when the character
triggers the wrap: on the 20-pixel-wide surface the third glyph of width 2 moves the
column from 13 to 19, `19 + 2 > 20`, and the implicit line feed resets it to 1. -/
theorem column_advance_fails_on_wrap :
    (32 : Int) ≤ 33 ∧ (33 : Int) ≤ 42
      ∧ (putchar wide_fb dot_atlas 33 third_cell).x
          ≠ third_cell.x + (character_width dot_atlas + character_margin) := by
  refine ⟨by decide, by decide, ?_⟩
  have hwrap : (after_glyph wide_fb dot_atlas 33 third_cell).x + character_width dot_atlas
      > wide_fb.pitch / 4 := by decide
  have hroom : (after_glyph wide_fb dot_atlas 33 third_cell).y + character_height * 2
      + character_margin < wide_fb.height := by decide
  rw [putchar_printable _ _ _ _ (by decide) (by decide), if_pos hwrap, putchar_lf, if_pos hroom]
  decide

/-- C8 (amended): for every supported code `c` in `32..42` and every state, if the
next cell still fits (`x + 2 * cw + m ≤ W`) then `putchar(c)` advances the column by
exactly `character_width + character_margin`; otherwise the implicit line feed leaves
the column at 1. -/
theorem putchar_column_advance (fb : limine_framebuffer) (a : Charmap) (c : Int) (s : State)
    (hc1 : 32 ≤ c) (hc2 : c ≤ 42) :
    (s.x + 2 * character_width a + character_margin ≤ fb.pitch / 4 →
        (putchar fb a c s).x = s.x + (character_width a + character_margin))
      ∧ (¬ (s.x + 2 * character_width a + character_margin ≤ fb.pitch / 4) →
        (putchar fb a c s).x = 1) := by
  have hx : (after_glyph fb a c s).x = s.x + (character_width a + character_margin) := rfl
  constructor
  · intro h
    have hn : ¬ ((after_glyph fb a c s).x + character_width a > fb.pitch / 4) := by
      rw [hx]; omega
    rw [putchar_printable fb a c s hc1 hc2, if_neg hn, hx]
  · intro h
    have hp : (after_glyph fb a c s).x + character_width a > fb.pitch / 4 := by
      rw [hx]; omega
    rw [putchar_printable fb a c s hc1 hc2, if_pos hp, putchar_lf]
    split <;> rfl

/-- C8 (amended), witness: the third glyph on the 20-pixel-wide surface. -/
theorem putchar_column_advance_witness :
    (third_cell.x + 2 * character_width dot_atlas + character_margin ≤ wide_fb.pitch / 4 →
        (putchar wide_fb dot_atlas 33 third_cell).x
          = third_cell.x + (character_width dot_atlas + character_margin))
      ∧ (¬ (third_cell.x + 2 * character_width dot_atlas + character_margin
            ≤ wide_fb.pitch / 4) →
        (putchar wide_fb dot_atlas 33 third_cell).x = 1) :=
  putchar_column_advance wide_fb dot_atlas 33 third_cell (by decide) (by decide)

/-! ## C9: the glyph frame -/

/-- C9: for a supported code `c` in `32..42` and a state in which no wrap is triggered
(`x + 2 * cw + m ≤ W`), `putchar(c)` leaves the row unchanged and leaves unchanged every
pixel whose flat index is not of the form `(y + i) * W + (x + j)` with
`i < character_height` and `j < character_width`; the pixels that can change form a
set of at most `character_width * character_height` indices, each the pixel
`(x + j, y + i)` of the cell, with its column `x + j` inside the surface. -/
theorem putchar_glyph_frame (fb : limine_framebuffer) (a : Charmap) (c : Int) (s : State)
    (hc1 : 32 ≤ c) (hc2 : c ≤ 42)
    (hfit : s.x + 2 * character_width a + character_margin ≤ fb.pitch / 4) :
    (putchar fb a c s).y = s.y
      ∧ (∀ k, (∀ i j, i < character_height → j < character_width a →
              k ≠ (s.y + i) * (fb.pitch / 4) + (s.x + j)) →
            (putchar fb a c s).mem k = s.mem k)
      ∧ ∃ cell : Finset Nat,
          cell.card ≤ character_width a * character_height
            ∧ (∀ k, k ∈ cell → ∃ i j, i < character_height ∧ j < character_width a
                ∧ s.x + j < fb.pitch / 4 ∧ k = (s.y + i) * (fb.pitch / 4) + (s.x + j))
            ∧ ∀ k, k ∉ cell → (putchar fb a c s).mem k = s.mem k := by
  have hx : (after_glyph fb a c s).x = s.x + (character_width a + character_margin) := rfl
  have hn : ¬ ((after_glyph fb a c s).x + character_width a > fb.pitch / 4) := by
    rw [hx]; omega
  have hput : putchar fb a c s = after_glyph fb a c s := by
    rw [putchar_printable fb a c s hc1 hc2, if_neg hn]
  have hframe : ∀ k, (∀ i j, i < character_height → j < character_width a →
        k ≠ (s.y + i) * (fb.pitch / 4) + (s.x + j)) →
      (putchar fb a c s).mem k = s.mem k := by
    intro k hk
    rw [hput]
    exact draw_glyph_frame fb a c s k hk
  refine ⟨by rw [hput]; rfl, hframe, ?_⟩
  refine ⟨(Finset.range character_height ×ˢ Finset.range (character_width a)).image
      (fun p => (s.y + p.1) * (fb.pitch / 4) + (s.x + p.2)), ?_, ?_, ?_⟩
  · refine le_trans Finset.card_image_le ?_
    rw [Finset.card_product, Finset.card_range, Finset.card_range, Nat.mul_comm]
  · intro k hk
    rcases Finset.mem_image.mp hk with ⟨p, hp, rfl⟩
    rcases Finset.mem_product.mp hp with ⟨hp1, hp2⟩
    have h1 := Finset.mem_range.mp hp1
    have h2 := Finset.mem_range.mp hp2
    exact ⟨p.1, p.2, h1, h2, by omega, rfl⟩
  · intro k hk
    refine hframe k (fun i j hi hj heq => hk ?_)
    refine Finset.mem_image.mpr ⟨(i, j), Finset.mem_product.mpr ⟨?_, ?_⟩, heq.symm⟩
    · exact Finset.mem_range.mpr hi
    · exact Finset.mem_range.mpr hj

/-- C9, witness: code 33 at the boot cursor of the 20-pixel-wide surface. -/
theorem putchar_glyph_frame_witness :
    (putchar wide_fb dot_atlas 33 blank).y = blank.y
      ∧ (∀ k, (∀ i j, i < character_height → j < character_width dot_atlas →
              k ≠ (blank.y + i) * (wide_fb.pitch / 4) + (blank.x + j)) →
            (putchar wide_fb dot_atlas 33 blank).mem k = blank.mem k)
      ∧ ∃ cell : Finset Nat,
          cell.card ≤ character_width dot_atlas * character_height
            ∧ (∀ k, k ∈ cell → ∃ i j, i < character_height ∧ j < character_width dot_atlas
                ∧ blank.x + j < wide_fb.pitch / 4
                ∧ k = (blank.y + i) * (wide_fb.pitch / 4) + (blank.x + j))
            ∧ ∀ k, k ∉ cell → (putchar wide_fb dot_atlas 33 blank).mem k = blank.mem k :=
  putchar_glyph_frame wide_fb dot_atlas 33 blank (by decide) (by decide) (by decide)


/-! ## C10: backspace followed by a printable character -/

theorem putchar_lf_x (fb : limine_framebuffer) (a : Charmap) (s : State) :
    (putchar fb a 10 s).x = 1 := by
  rw [putchar_lf]
  split <;> rfl

/-- Every call of `putchar` re-establishes the column invariant. -/
theorem putchar_column_fits (fb : limine_framebuffer) (a : Charmap) (c : Int) (s : State)
    (h : column_fits fb a s) : column_fits fb a (putchar fb a c s) := by
  by_cases hp : 32 ≤ c ∧ c ≤ 42
  · rw [putchar_printable fb a c s hp.1 hp.2]
    split
    · exact Or.inl (putchar_lf_x fb a _)
    · rename_i hn
      exact Or.inr (Nat.le_of_not_gt hn)
  · by_cases hcr : c = 13
    · subst hcr
      rw [putchar_cr]
      exact Or.inl rfl
    · by_cases hlf : c = 10
      · subst hlf
        exact Or.inl (putchar_lf_x fb a s)
      · by_cases hbs : c = 8
        · subst hbs
          rw [putchar_bs]
          split
          · rename_i hgt
            have hm : character_margin = 4 := rfl
            rcases h with h1 | h2
            · rw [h1, hm] at hgt
              omega
            · refine Or.inr ?_
              show size_sub s.x (character_width a + character_margin) + character_width a
                ≤ fb.pitch / 4
              rw [size_sub_of_le (Nat.le_of_lt hgt)]
              omega
          · exact h
        · rw [putchar_other fb a c s hp hcr hlf hbs]
          exact h

theorem run_column_fits (fb : limine_framebuffer) (a : Charmap) (bytes : List Int) :
    ∀ s : State, column_fits fb a s → column_fits fb a (run fb a bytes s) := by
  induction bytes with
  | nil => exact fun s h => h
  | cons c rest ih => exact fun s h => ih (putchar fb a c s) (putchar_column_fits fb a c s h)

theorem reachable_column_fits (fb : limine_framebuffer) (a : Charmap) (s : State)
    (h : Reachable fb a s) : column_fits fb a s := by
  rcases h with ⟨mem, bytes, rfl⟩
  exact run_column_fits fb a bytes _ (Or.inl rfl)

/-- C10: on every surface, for every state reachable from the boot cursor `(1, 1)` by
a byte sequence whose column satisfies `x > character_width + character_margin`, and
every supported code `c` in `32..42`, `putchar('\b')` followed by `putchar(c)` ends
with the column equal to `x` again and the row unchanged. -/
theorem backspace_then_print_restores_column (fb : limine_framebuffer) (a : Charmap) (c : Int)
    (s : State) (hs : Reachable fb a s) (hx : s.x > character_width a + character_margin)
    (hc1 : 32 ≤ c) (hc2 : c ≤ 42) :
    (putchar fb a c (putchar fb a 8 s)).x = s.x
      ∧ (putchar fb a c (putchar fb a 8 s)).y = s.y := by
  have hfit : s.x + character_width a ≤ fb.pitch / 4 := by
    have hm : character_margin = 4 := rfl
    rcases reachable_column_fits fb a s hs with h1 | h2
    · rw [h1, hm] at hx
      omega
    · exact h2
  have hbs : putchar fb a 8 s
      = { s with x := s.x - (character_width a + character_margin) } := by
    rw [putchar_bs, if_pos hx, size_sub_of_le (Nat.le_of_lt hx)]
  have hback : (after_glyph fb a c (putchar fb a 8 s)).x = s.x := by
    rw [hbs]
    show s.x - (character_width a + character_margin)
      + (character_width a + character_margin) = s.x
    omega
  have hn : ¬ ((after_glyph fb a c (putchar fb a 8 s)).x + character_width a
      > fb.pitch / 4) := by
    rw [hback]
    omega
  rw [putchar_printable fb a c _ hc1 hc2, if_neg hn]
  refine ⟨hback, ?_⟩
  rw [hbs]
  rfl

/-- C10, witness: the state after two glyphs on the 20-pixel-wide surface (column 13),
then backspace and code 33. -/
theorem backspace_then_print_restores_column_witness :
    (run wide_fb dot_atlas [33, 33] (State.init (fun _ => 0))).x
        > character_width dot_atlas + character_margin
      ∧ (putchar wide_fb dot_atlas 33
            (putchar wide_fb dot_atlas 8
              (run wide_fb dot_atlas [33, 33] (State.init (fun _ => 0))))).x
          = (run wide_fb dot_atlas [33, 33] (State.init (fun _ => 0))).x
      ∧ (putchar wide_fb dot_atlas 33
            (putchar wide_fb dot_atlas 8
              (run wide_fb dot_atlas [33, 33] (State.init (fun _ => 0))))).y
          = (run wide_fb dot_atlas [33, 33] (State.init (fun _ => 0))).y := by
  have h1 : putchar wide_fb dot_atlas 33 (State.init (fun _ => 0))
      = after_glyph wide_fb dot_atlas 33 (State.init (fun _ => 0)) :=
    putchar_no_wrap wide_fb dot_atlas 33 _ (by decide) (by decide) (by decide)
  have h2 : run wide_fb dot_atlas [33, 33] (State.init (fun _ => 0))
      = after_glyph wide_fb dot_atlas 33
          (after_glyph wide_fb dot_atlas 33 (State.init (fun _ => 0))) := by
    show putchar wide_fb dot_atlas 33 (putchar wide_fb dot_atlas 33 (State.init (fun _ => 0)))
      = _
    rw [h1]
    exact putchar_no_wrap wide_fb dot_atlas 33 _ (by decide) (by decide) (by decide)
  have hx : (run wide_fb dot_atlas [33, 33] (State.init (fun _ => 0))).x
      > character_width dot_atlas + character_margin := by
    rw [h2]
    decide
  exact ⟨hx, backspace_then_print_restores_column wide_fb dot_atlas 33 _
    ⟨fun _ => 0, [33, 33], rfl⟩ hx (by decide) (by decide)⟩

/-! ## C11: wrap on an exactly-too-narrow surface -/

theorem run_append (fb : limine_framebuffer) (a : Charmap) (l1 l2 : List Int) (s : State) :
    run fb a (l1 ++ l2) s = run fb a l2 (run fb a l1 s) := by
  simp [run, List.foldl_append]

theorem wrap_count_append (fb : limine_framebuffer) (a : Charmap) (l1 l2 : List Int) :
    ∀ s : State, wrap_count fb a (l1 ++ l2) s
      = wrap_count fb a l1 s + wrap_count fb a l2 (run fb a l1 s) := by
  induction l1 with
  | nil => intro s; simp [wrap_count, run]
  | cons c rest ih =>
    intro s
    show (if triggers_wrap fb a c s then 1 else 0)
        + wrap_count fb a (rest ++ l2) (putchar fb a c s)
      = (if triggers_wrap fb a c s then 1 else 0) + wrap_count fb a rest (putchar fb a c s)
        + wrap_count fb a l2 (run fb a rest (putchar fb a c s))
    rw [ih]
    omega

/-- A printable character that triggers the wrap ends at column 1. -/
theorem putchar_x_of_wrap (fb : limine_framebuffer) (a : Charmap) (c : Int) (s : State)
    (h : triggers_wrap fb a c s) : (putchar fb a c s).x = 1 := by
  rw [putchar_printable fb a c s h.1 h.2.1, if_pos h.2.2]
  exact putchar_lf_x fb a _

/-- A printable character that triggers the wrap with room below ends one text line
lower. -/
theorem putchar_y_of_wrap (fb : limine_framebuffer) (a : Charmap) (c : Int) (s : State)
    (h : triggers_wrap fb a c s)
    (hroom : s.y + character_height * 2 + character_margin < fb.height) :
    (putchar fb a c s).y = s.y + (character_height + character_margin) := by
  have hy : (after_glyph fb a c s).y = s.y := rfl
  rw [putchar_printable fb a c s h.1 h.2.1, if_pos h.2.2, putchar_lf, if_pos (by rw [hy]; exact hroom)]
  rfl

/-- A sequence of supported characters whose cells all fit, with room for one more
glyph after the last advance, triggers no wrap and only advances the column. -/
theorem run_no_wrap (fb : limine_framebuffer) (a : Charmap) (cs : List Int)
    (hcs : ∀ c, c ∈ cs → 32 ≤ c ∧ c ≤ 42) :
    ∀ s : State,
      s.x + cs.length * (character_width a + character_margin) + character_width a
          ≤ fb.pitch / 4 →
      wrap_count fb a cs s = 0
        ∧ (run fb a cs s).x = s.x + cs.length * (character_width a + character_margin)
        ∧ (run fb a cs s).y = s.y := by
  induction cs with
  | nil => intro s _; exact ⟨rfl, by simp [run], rfl⟩
  | cons c rest ih =>
    intro s hfit
    have hc := hcs c (List.mem_cons_self c rest)
    have hlen : (c :: rest).length = rest.length + 1 := rfl
    rw [hlen, Nat.add_mul, Nat.one_mul] at hfit
    have hx : (after_glyph fb a c s).x = s.x + (character_width a + character_margin) := rfl
    have hput : putchar fb a c s = after_glyph fb a c s :=
      putchar_no_wrap fb a c s hc.1 hc.2 (by rw [hx]; omega)
    have hnw : ¬ triggers_wrap fb a c s := by
      intro h
      have := h.2.2
      rw [hx] at this
      omega
    have ih2 := ih (fun c2 h2 => hcs c2 (List.mem_cons_of_mem c h2)) (after_glyph fb a c s)
      (by rw [hx]; omega)
    refine ⟨?_, ?_, ?_⟩
    · show (if triggers_wrap fb a c s then 1 else 0)
          + wrap_count fb a rest (putchar fb a c s) = 0
      rw [if_neg hnw, hput, ih2.1]
    · show (run fb a rest (putchar fb a c s)).x = _
      rw [hput, ih2.2.1, hx, hlen, Nat.add_mul, Nat.one_mul]
      omega
    · show (run fb a rest (putchar fb a c s)).y = _
      rw [hput, ih2.2.2]
      rfl

/-- On a surface at least one glyph wide and for a row `y ≥ 1`, the pixel `(i, j)` of
the cell holds its sample after `putchar(c)`, whatever branch the call ends in. -/
theorem putchar_mem_glyph (fb : limine_framebuffer) (a : Charmap) (c : Int) (s : State)
    (i j : Nat) (hc1 : 32 ≤ c) (hc2 : c ≤ 42) (hW : character_width a ≤ fb.pitch / 4)
    (hy : 1 ≤ s.y) (hi : i < character_height) (hj : j < character_width a) :
    (putchar fb a c s).mem ((s.y + i) * (fb.pitch / 4) + (s.x + j)) = glyph_pixel a c i j := by
  rw [putchar_printable fb a c s hc1 hc2]
  split
  · rw [putchar_lf]
    split
    · exact draw_glyph_hit fb a c s i j hW hi hj
    · show scroll_copy _ _ (draw_glyph fb a c s) _ = _
      rw [scroll_copy_apply]
      have hyy : (after_glyph fb a c s).y = s.y := rfl
      rw [hyy, size_sub_of_le hy]
      have hle : (s.y - 1) * (fb.pitch / 4) ≤ (s.y + i) * (fb.pitch / 4) :=
        Nat.mul_le_mul_right _ (by omega)
      have hn : ¬ ((s.y + i) * (fb.pitch / 4) + (s.x + j) < (s.y - 1) * (fb.pitch / 4)) := by
        omega
      rw [if_neg hn]
      exact draw_glyph_hit fb a c s i j hW hi hj
  · exact draw_glyph_hit fb a c s i j hW hi hj

theorem exists_front_of_two_le (cs : List Int) (h : 2 ≤ cs.length) :
    ∃ front c1 c2, cs = front ++ [c1, c2] := by
  rcases List.eq_nil_or_concat cs with h0 | ⟨l1, c2, h1⟩
  · subst h0
    simp at h
  · rw [List.concat_eq_append] at h1
    subst h1
    rcases List.eq_nil_or_concat l1 with h0 | ⟨front, c1, h2⟩
    · subst h0
      simp at h
    · rw [List.concat_eq_append] at h2
      subst h2
      exact ⟨front, c1, c2, by simp⟩

/-- The run of `front ++ [c1, c2]` on the surface of width
`(front.length + 1) * (character_width + character_margin)`: no wrap during `front`,
a wrap at `c1` that moves the cursor to `(1, 1 + character_height + character_margin)`,
and a wrap at `c2` exactly when `front` is empty. -/
theorem single_wrap_core (fb : limine_framebuffer) (a : Charmap) (front : List Int)
    (c1 c2 : Int) (mem : Nat → Nat)
    (hfront : ∀ c, c ∈ front → 32 ≤ c ∧ c ≤ 42) (h1 : 32 ≤ c1 ∧ c1 ≤ 42)
    (h2 : 32 ≤ c2 ∧ c2 ≤ 42)
    (hW : fb.pitch / 4 = (front.length + 1) * (character_width a + character_margin))
    (hH : 1 + 2 * character_height + character_margin < fb.height) :
    wrap_count fb a front (State.init mem) = 0
      ∧ triggers_wrap fb a c1 (run fb a front (State.init mem))
      ∧ (run fb a (front ++ [c1]) (State.init mem)).x = 1
      ∧ (run fb a (front ++ [c1]) (State.init mem)).y = 1 + character_height + character_margin
      ∧ (triggers_wrap fb a c2 (run fb a (front ++ [c1]) (State.init mem))
          ↔ front.length = 0) := by
  have hm : character_margin = 4 := rfl
  have hch : character_height = 20 := rfl
  rw [Nat.add_mul, Nat.one_mul] at hW
  have hinit : (State.init mem).x = 1 ∧ (State.init mem).y = 1 := ⟨rfl, rfl⟩
  have hrun := run_no_wrap fb a front hfront (State.init mem) (by rw [hinit.1, hW, hm]; omega)
  rw [hinit.1, hinit.2] at hrun
  have hxa : (after_glyph fb a c1 (run fb a front (State.init mem))).x
      = (run fb a front (State.init mem)).x + (character_width a + character_margin) := rfl
  have hw1 : triggers_wrap fb a c1 (run fb a front (State.init mem)) := by
    refine ⟨h1.1, h1.2, ?_⟩
    rw [hxa, hrun.2.1, hW]
    omega
  have hstep : run fb a (front ++ [c1]) (State.init mem)
      = putchar fb a c1 (run fb a front (State.init mem)) := by
    rw [run_append]
    rfl
  have hx1 : (run fb a (front ++ [c1]) (State.init mem)).x = 1 := by
    rw [hstep]
    exact putchar_x_of_wrap fb a c1 _ hw1
  have hy1 : (run fb a (front ++ [c1]) (State.init mem)).y
      = 1 + character_height + character_margin := by
    rw [hstep, putchar_y_of_wrap fb a c1 _ hw1 (by rw [hrun.2.2, hch, hm]; rw [hch, hm] at hH; omega),
      hrun.2.2]
    omega
  refine ⟨hrun.1, hw1, hx1, hy1, ?_⟩
  have hxb : (after_glyph fb a c2 (run fb a (front ++ [c1]) (State.init mem))).x
      = (run fb a (front ++ [c1]) (State.init mem)).x
        + (character_width a + character_margin) := rfl
  constructor
  · intro h
    have h3 := h.2.2
    rw [hxb, hx1, hW] at h3
    by_contra hne
    have hpos : 1 ≤ front.length := by omega
    have hmul : 1 * (character_width a + character_margin)
        ≤ front.length * (character_width a + character_margin) :=
      Nat.mul_le_mul_right _ hpos
    rw [hm] at h3 hmul
    omega
  · intro h0
    refine ⟨h2.1, h2.2, ?_⟩
    rw [hxb, hx1, hW, h0]
    omega

/-- C11, as stated for every `N ≥ 2`, fails at `N = 2`: on the surface of width
`1 * (2 + 4) = 6` the first glyph moves the column to 7 and wraps, and the second
glyph, drawn at column 1 of the next line, moves the column to 7 and wraps again, so
two implicit newlines are triggered, not one. -/
theorem two_glyphs_wrap_twice :
    2 ≤ 2
      ∧ one_cell_fb.pitch / 4 = (2 - 1) * (character_width dot_atlas + character_margin)
      ∧ 1 + 2 * character_height + character_margin < one_cell_fb.height
      ∧ (∀ c : Int, c ∈ [(33 : Int), 33] → 32 ≤ c ∧ c ≤ 42)
      ∧ wrap_count one_cell_fb dot_atlas [33, 33] blank = 2
      ∧ wrap_count one_cell_fb dot_atlas [33, 33] blank ≠ 1 := by
  have hcore := single_wrap_core one_cell_fb dot_atlas [] 33 33 (fun _ => 0)
    (fun c hc => by simp at hc) (by decide) (by decide) (by decide) (by decide)
  have hcount : wrap_count one_cell_fb dot_atlas [33, 33] blank = 2 := by
    show (if triggers_wrap one_cell_fb dot_atlas 33
              (run one_cell_fb dot_atlas [] (State.init (fun _ => 0))) then 1 else 0)
        + ((if triggers_wrap one_cell_fb dot_atlas 33
              (run one_cell_fb dot_atlas ([] ++ [33]) (State.init (fun _ => 0))) then 1 else 0)
            + 0) = 2
    rw [if_pos hcore.2.1, if_pos (hcore.2.2.2.2.mpr rfl)]
  refine ⟨by decide, by decide, by decide, ?_, hcount, by rw [hcount]; decide⟩
  intro c hc
  simp at hc
  subst hc
  decide

/-- C11 (amended): for every `N ≥ 2`, on a surface of width
`W = (N - 1) * (character_width + character_margin)` with room for a second line
(`1 + 2 * character_height + character_margin < height`), printing `N` supported
characters from the boot cursor `(1, 1)` triggers no implicit newline during the first
`N - 2` characters and the first one after the `(N - 1)`th, and the `N`th glyph is
drawn with its origin at column 1 on row `1 + character_height + character_margin`
(cursor before the `N`th character, and pixels of the cell afterwards).  For `N ≥ 3`
this is the only implicit newline; for `N = 2` the `N`th character triggers a second
one. -/
theorem single_wrap_on_exact_surface (fb : limine_framebuffer) (a : Charmap) (cs : List Int)
    (mem : Nat → Nat) (N : Nat) (hN : 2 ≤ N) (hlen : cs.length = N)
    (hcs : ∀ c, c ∈ cs → 32 ≤ c ∧ c ≤ 42)
    (hW : fb.pitch / 4 = (N - 1) * (character_width a + character_margin))
    (hH : 1 + 2 * character_height + character_margin < fb.height) :
    wrap_count fb a (cs.take (N - 2)) (State.init mem) = 0
      ∧ wrap_count fb a (cs.take (N - 1)) (State.init mem) = 1
      ∧ (run fb a (cs.take (N - 1)) (State.init mem)).x = 1
      ∧ (run fb a (cs.take (N - 1)) (State.init mem)).y
          = 1 + character_height + character_margin
      ∧ (∀ i j, i < character_height → j < character_width a →
          (run fb a cs (State.init mem)).mem
              ((1 + character_height + character_margin + i) * (fb.pitch / 4) + (1 + j))
            = 0xFFFFFF * a.charmap (cs.getD (N - 1) 0 - 32).toNat
                ((i * a.CHARACTER_HEIGHT / character_height) * a.CHARACTER_WIDTH
                  + j * a.CHARACTER_WIDTH / character_width a))
      ∧ (3 ≤ N → wrap_count fb a cs (State.init mem) = 1)
      ∧ (N = 2 → wrap_count fb a cs (State.init mem) = 2) := by
  rcases exists_front_of_two_le cs (by omega) with ⟨front, c1, c2, rfl⟩
  have hNlen : N = front.length + 2 := by simpa using hlen.symm
  subst hNlen
  have hfront : ∀ c, c ∈ front → 32 ≤ c ∧ c ≤ 42 := fun c hc => hcs c (by simp [hc])
  have h1 : 32 ≤ c1 ∧ c1 ≤ 42 := hcs c1 (by simp)
  have h2 : 32 ≤ c2 ∧ c2 ≤ 42 := hcs c2 (by simp)
  have hN1 : front.length + 2 - 1 = front.length + 1 := by omega
  have hN2 : front.length + 2 - 2 = front.length := by omega
  rw [hN1] at hW
  rw [hN1, hN2]
  have hcore := single_wrap_core fb a front c1 c2 mem hfront h1 h2 hW hH
  have hsplit : front ++ [c1, c2] = (front ++ [c1]) ++ [c2] := by simp
  have htake2 : (front ++ [c1, c2]).take front.length = front := List.take_left front _
  have htake1 : (front ++ [c1, c2]).take (front.length + 1) = front ++ [c1] := by
    rw [hsplit]
    exact List.take_left' (by simp)
  have hget : (front ++ [c1, c2]).getD (front.length + 1) 0 = c2 := by
    rw [hsplit, List.getD_eq_getElem?_getD, List.getElem?_append_right (by simp)]
    simp
  have hone : wrap_count fb a (front ++ [c1]) (State.init mem) = 1 := by
    rw [wrap_count_append, hcore.1]
    show 0 + ((if triggers_wrap fb a c1 (run fb a front (State.init mem)) then 1 else 0) + 0)
      = 1
    rw [if_pos hcore.2.1]
  have hall : wrap_count fb a (front ++ [c1, c2]) (State.init mem)
      = 1 + (if triggers_wrap fb a c2 (run fb a (front ++ [c1]) (State.init mem))
              then 1 else 0) := by
    rw [hsplit, wrap_count_append, hone]
    rfl
  rw [htake2, htake1, hget]
  refine ⟨hcore.1, hone, hcore.2.2.1, hcore.2.2.2.1, ?_, ?_, ?_⟩
  · intro i j hi hj
    have hm : character_margin = 4 := rfl
    have hWcw : character_width a ≤ fb.pitch / 4 := by
      rw [hW, Nat.add_mul, Nat.one_mul, hm]
      omega
    have hrun : run fb a (front ++ [c1, c2]) (State.init mem)
        = putchar fb a c2 (run fb a (front ++ [c1]) (State.init mem)) := by
      rw [hsplit, run_append]
      rfl
    have hpix := putchar_mem_glyph fb a c2 (run fb a (front ++ [c1]) (State.init mem)) i j
      h2.1 h2.2 hWcw (by rw [hcore.2.2.2.1]; omega) hi hj
    rw [hcore.2.2.1, hcore.2.2.2.1] at hpix
    rw [hrun, hpix]
    rfl
  · intro h3
    have hn : ¬ triggers_wrap fb a c2 (run fb a (front ++ [c1]) (State.init mem)) :=
      fun h => by have := hcore.2.2.2.2.mp h; omega
    rw [hall, if_neg hn]
  · intro h2eq
    have hp : triggers_wrap fb a c2 (run fb a (front ++ [c1]) (State.init mem)) :=
      hcore.2.2.2.2.mpr (by omega)
    rw [hall, if_pos hp]

/-- C11 (amended), witness: three glyphs of width 2 on the surface of width
`2 * (2 + 4) = 12`. -/
theorem single_wrap_on_exact_surface_witness :
    wrap_count (limine_framebuffer.mk 48 100) dot_atlas (List.take (3 - 2) [33, 34, 35])
        (State.init (fun _ => 0)) = 0
      ∧ wrap_count (limine_framebuffer.mk 48 100) dot_atlas (List.take (3 - 1) [33, 34, 35])
          (State.init (fun _ => 0)) = 1
      ∧ (run (limine_framebuffer.mk 48 100) dot_atlas (List.take (3 - 1) [33, 34, 35])
          (State.init (fun _ => 0))).x = 1
      ∧ (run (limine_framebuffer.mk 48 100) dot_atlas (List.take (3 - 1) [33, 34, 35])
          (State.init (fun _ => 0))).y = 1 + character_height + character_margin
      ∧ (∀ i j, i < character_height → j < character_width dot_atlas →
          (run (limine_framebuffer.mk 48 100) dot_atlas [33, 34, 35]
              (State.init (fun _ => 0))).mem
              ((1 + character_height + character_margin + i)
                * ((limine_framebuffer.mk 48 100).pitch / 4) + (1 + j))
            = 0xFFFFFF * dot_atlas.charmap (List.getD [33, 34, 35] (3 - 1) 0 - 32 : Int).toNat
                ((i * dot_atlas.CHARACTER_HEIGHT / character_height) * dot_atlas.CHARACTER_WIDTH
                  + j * dot_atlas.CHARACTER_WIDTH / character_width dot_atlas))
      ∧ (3 ≤ 3 → wrap_count (limine_framebuffer.mk 48 100) dot_atlas [33, 34, 35]
          (State.init (fun _ => 0)) = 1)
      ∧ (3 = 2 → wrap_count (limine_framebuffer.mk 48 100) dot_atlas [33, 34, 35]
          (State.init (fun _ => 0)) = 2) :=
  single_wrap_on_exact_surface (limine_framebuffer.mk 48 100) dot_atlas [33, 34, 35]
    (fun _ => 0) 3 (by decide) (by decide)
    (fun c hc => by
      simp at hc
      rcases hc with h | h | h <;> subst h <;> decide)
    (by decide) (by decide)

/-! ## C12: the two-line scroll scenario -/

/-- C12: on a surface whose height allows exactly two text lines
(`1 + 2 * ch + m < H ≤ 1 + 3 * ch + 2 * m`), for every initial pixel buffer, the first
`'\n'` fed from the boot cursor `(1, 1)` meets the room test (non-scroll branch: the row
becomes `1 + ch + m`, no pixel changes) and the second one fails it (scroll branch);
afterwards the row is `1 + ch + m` and for every row `r` in `[1, 1 + ch)` and column
`k < W` the pixel at `(k, r)` equals the pixel that was at `(k, r + ch + m)` before the
second `'\n'`. -/
theorem two_line_scroll (fb : limine_framebuffer) (a : Charmap) (mem : Nat → Nat)
    (h1 : 1 + 2 * character_height + character_margin < fb.height)
    (h2 : fb.height ≤ 1 + 3 * character_height + 2 * character_margin) :
    (State.init mem).y + character_height * 2 + character_margin < fb.height
      ∧ (putchar fb a 10 (State.init mem)).y = 1 + character_height + character_margin
      ∧ (∀ k, (putchar fb a 10 (State.init mem)).mem k = mem k)
      ∧ ¬ ((putchar fb a 10 (State.init mem)).y + character_height * 2 + character_margin
            < fb.height)
      ∧ (putchar fb a 10 (putchar fb a 10 (State.init mem))).y
          = 1 + character_height + character_margin
      ∧ (putchar fb a 10 (putchar fb a 10 (State.init mem))).x = 1
      ∧ ∀ r k, 1 ≤ r → r < 1 + character_height → k < fb.pitch / 4 →
          (putchar fb a 10 (putchar fb a 10 (State.init mem))).mem (r * (fb.pitch / 4) + k)
            = (putchar fb a 10 (State.init mem)).mem
                ((r + character_height + character_margin) * (fb.pitch / 4) + k) := by
  have hch : character_height = 20 := rfl
  have hm : character_margin = 4 := rfl
  have hroom : (State.init mem).y + character_height * 2 + character_margin < fb.height := by
    show 1 + character_height * 2 + character_margin < fb.height
    omega
  have hs1 : putchar fb a 10 (State.init mem)
      = { x := 1, y := 1 + (character_height + character_margin), mem := mem } := by
    rw [putchar_lf, if_pos hroom]
    rfl
  have hfull : ¬ ((putchar fb a 10 (State.init mem)).y + character_height * 2
      + character_margin < fb.height) := by
    rw [hs1]
    show ¬ (1 + (character_height + character_margin) + character_height * 2
      + character_margin < fb.height)
    omega
  have hs2 : putchar fb a 10 (putchar fb a 10 (State.init mem))
      = { x := 1, y := 1 + (character_height + character_margin)
          mem := scroll_copy (fb.pitch / 4 * (character_height + character_margin))
            (size_sub (1 + (character_height + character_margin)) 1 * (fb.pitch / 4)) mem } := by
    rw [putchar_lf, if_neg hfull, hs1]
  refine ⟨hroom, ?_, ?_, hfull, ?_, ?_, ?_⟩
  · rw [hs1]
    exact (Nat.add_assoc _ _ _).symm
  · intro k
    rw [hs1]
  · rw [hs2]
    exact (Nat.add_assoc _ _ _).symm
  · rw [hs2]
  · intro r k hr1 hr2 hk
    rw [hs2, hs1]
    dsimp only
    rw [scroll_copy_apply, size_sub_of_le (by omega), hch, hm]
    rw [hch] at hr2
    have hrow : (r + 1) * (fb.pitch / 4) ≤ (1 + (20 + 4) - 1) * (fb.pitch / 4) :=
      Nat.mul_le_mul_right _ (by omega)
    rw [Nat.add_mul, Nat.one_mul] at hrow
    have hlt : r * (fb.pitch / 4) + k < (1 + (20 + 4) - 1) * (fb.pitch / 4) := by omega
    rw [if_pos hlt]
    congr 1
    have : (r + 20 + 4) * (fb.pitch / 4) = r * (fb.pitch / 4) + fb.pitch / 4 * (20 + 4) := by
      rw [Nat.add_assoc, Nat.add_mul, Nat.mul_comm (20 + 4)]
    omega

/-- C12, witness: a surface 8 pixels wide and 60 rows high over the pixel memory in
which cell `k` holds the value `k`. -/
theorem two_line_scroll_witness :
    (State.init (fun k => k)).y + character_height * 2 + character_margin
        < (limine_framebuffer.mk 32 60).height
      ∧ (putchar (limine_framebuffer.mk 32 60) dot_atlas 10 (State.init (fun k => k))).y
          = 1 + character_height + character_margin
      ∧ (∀ k, (putchar (limine_framebuffer.mk 32 60) dot_atlas 10
          (State.init (fun k => k))).mem k = k)
      ∧ ¬ ((putchar (limine_framebuffer.mk 32 60) dot_atlas 10 (State.init (fun k => k))).y
            + character_height * 2 + character_margin < (limine_framebuffer.mk 32 60).height)
      ∧ (putchar (limine_framebuffer.mk 32 60) dot_atlas 10
          (putchar (limine_framebuffer.mk 32 60) dot_atlas 10 (State.init (fun k => k)))).y
          = 1 + character_height + character_margin
      ∧ (putchar (limine_framebuffer.mk 32 60) dot_atlas 10
          (putchar (limine_framebuffer.mk 32 60) dot_atlas 10 (State.init (fun k => k)))).x = 1
      ∧ ∀ r k, 1 ≤ r → r < 1 + character_height → k < (limine_framebuffer.mk 32 60).pitch / 4 →
          (putchar (limine_framebuffer.mk 32 60) dot_atlas 10
            (putchar (limine_framebuffer.mk 32 60) dot_atlas 10 (State.init (fun k => k)))).mem
              (r * ((limine_framebuffer.mk 32 60).pitch / 4) + k)
            = (putchar (limine_framebuffer.mk 32 60) dot_atlas 10 (State.init (fun k => k))).mem
                ((r + character_height + character_margin)
                  * ((limine_framebuffer.mk 32 60).pitch / 4) + k) :=
  two_line_scroll (limine_framebuffer.mk 32 60) dot_atlas (fun k => k) (by decide) (by decide)

/-! ## C13: identity scaling -/

theorem character_width_of_native_height (a : Charmap)
    (hNH : a.CHARACTER_HEIGHT = character_height) : character_width a = a.CHARACTER_WIDTH := by
  unfold character_width
  rw [hNH]
  exact Nat.mul_div_cancel_left _ (by decide)

theorem sample_index_of_native_height (a : Charmap)
    (hNH : a.CHARACTER_HEIGHT = character_height) (i j : Nat) (hj : j < a.CHARACTER_WIDTH) :
    sample_index a i j = i * a.CHARACTER_WIDTH + j := by
  unfold sample_index
  rw [character_width_of_native_height a hNH, hNH,
    Nat.mul_div_cancel _ (by decide : 0 < character_height),
    Nat.mul_div_cancel _ (by omega : 0 < a.CHARACTER_WIDTH)]

/-- C13, as stated for every state, fails on a surface narrower than a glyph, also
under identity scaling: with `NH = 20`, `NW = 2` and `W = 1` the pixels `(0, 1)` and
`(1, 0)` of the cell share the flat index 3, which ends with the sample `[1 * 2 + 0]`
(clear) instead of the sample `[0 * 2 + 1]` (set). -/
theorem identity_scaling_fails_when_surface_narrower_than_glyph :
    dot_atlas.CHARACTER_HEIGHT = 20 ∧ (32 : Int) ≤ 35 ∧ (35 : Int) ≤ 42
      ∧ 0 < dot_atlas.CHARACTER_HEIGHT ∧ 1 < dot_atlas.CHARACTER_WIDTH
      ∧ (putchar narrow_fb dot_atlas 35 blank).mem
            ((blank.y + 0) * (narrow_fb.pitch / 4) + (blank.x + 1))
          ≠ 0xFFFFFF * dot_atlas.charmap (35 - 32 : Int).toNat
              (0 * dot_atlas.CHARACTER_WIDTH + 1) := by
  refine ⟨rfl, by decide, by decide, by decide, by decide, ?_⟩
  have hwrap : (after_glyph narrow_fb dot_atlas 35 blank).x + character_width dot_atlas
      > narrow_fb.pitch / 4 := by decide
  have hroom : (after_glyph narrow_fb dot_atlas 35 blank).y + character_height * 2
      + character_margin < narrow_fb.height := by decide
  rw [putchar_printable _ _ _ _ (by decide) (by decide), if_pos hwrap, putchar_lf, if_pos hroom]
  exact (by decide :
    draw_glyph narrow_fb dot_atlas 35 blank 3
      ≠ 0xFFFFFF * dot_atlas.charmap (35 - 32 : Int).toNat (0 * dot_atlas.CHARACTER_WIDTH + 1))

/-- C13 (amended): when the native glyph height equals `character_height` (`NH = 20`),
`character_width = NW`, and on a surface at least one glyph wide (`NW ≤ pitch / 4`),
for a cursor row `y ≥ 1`, every supported code `c` in `32..42` and every `i < NH`,
`j < NW`, after `putchar(c)` the pixel at `(x + j, y + i)` equals
`0xFFFFFF * charmap[c - 32][i * NW + j]`: the cell reproduces the source bitmap
pixel for pixel. -/
theorem identity_scaling (fb : limine_framebuffer) (a : Charmap) (c : Int) (s : State)
    (hNH : a.CHARACTER_HEIGHT = character_height) (hc1 : 32 ≤ c) (hc2 : c ≤ 42)
    (hW : a.CHARACTER_WIDTH ≤ fb.pitch / 4) (hy : 1 ≤ s.y) :
    character_width a = a.CHARACTER_WIDTH
      ∧ ∀ i j, i < a.CHARACTER_HEIGHT → j < a.CHARACTER_WIDTH →
          (putchar fb a c s).mem ((s.y + i) * (fb.pitch / 4) + (s.x + j))
            = 0xFFFFFF * a.charmap (c - 32).toNat (i * a.CHARACTER_WIDTH + j) := by
  have hcw := character_width_of_native_height a hNH
  refine ⟨hcw, fun i j hi hj => ?_⟩
  rw [putchar_mem_glyph fb a c s i j hc1 hc2 (by rw [hcw]; exact hW) hy (by rw [← hNH]; exact hi)
    (by rw [hcw]; exact hj)]
  show WHITE * a.charmap (c - 32).toNat (sample_index a i j) = _
  rw [sample_index_of_native_height a hNH i j hj]
  rfl

/-- C13 (amended), witness: the 2 x 20 atlas on the 20-pixel-wide surface, code 33 at
the boot cursor. -/
theorem identity_scaling_witness :
    character_width dot_atlas = dot_atlas.CHARACTER_WIDTH
      ∧ ∀ i j, i < dot_atlas.CHARACTER_HEIGHT → j < dot_atlas.CHARACTER_WIDTH →
          (putchar wide_fb dot_atlas 33 blank).mem
              ((blank.y + i) * (wide_fb.pitch / 4) + (blank.x + j))
            = 0xFFFFFF * dot_atlas.charmap (33 - 32 : Int).toNat
                (i * dot_atlas.CHARACTER_WIDTH + j) :=
  identity_scaling wide_fb dot_atlas 33 blank rfl (by decide) (by decide) (by decide)
    (by decide)

/-! ## C14: the cursor invariant -/

/-- A property kept by every call of `putchar` is kept by every run. -/
theorem run_preserves (fb : limine_framebuffer) (a : Charmap) (P : State → Prop)
    (hP : ∀ c s, P s → P (putchar fb a c s)) (bytes : List Int) :
    ∀ s : State, P s → P (run fb a bytes s) := by
  induction bytes with
  | nil => exact fun s h => h
  | cons c rest ih => exact fun s h => ih (putchar fb a c s) (hP c s h)

/-- A property kept by every call of `putchar` is kept by the loop of `puts`. -/
theorem puts_loop_preserves (fb : limine_framebuffer) (a : Charmap) (P : State → Prop)
    (hP : ∀ c s, P s → P (putchar fb a c s)) (string : List Int) (length : Nat) :
    ∀ (fuel i : Nat) (s : State), P s → P (puts_loop fb a string length fuel i s) := by
  intro fuel
  induction fuel with
  | zero => exact fun i s h => h
  | succ fuel ih =>
    intro i s h
    rw [puts_loop]
    split
    · exact ih (i + 1) _ (hP _ s h)
    · exact h

/-- What a call of `putchar` does to the row: it stays, or it grows by one text line. -/
theorem putchar_y_cases (fb : limine_framebuffer) (a : Charmap) (c : Int) (s : State) :
    (putchar fb a c s).y = s.y
      ∨ (s.y + character_height * 2 + character_margin < fb.height
          ∧ (putchar fb a c s).y = s.y + (character_height + character_margin)) := by
  have hlf : ∀ t : State, (putchar fb a 10 t).y = t.y
      ∨ (t.y + character_height * 2 + character_margin < fb.height
          ∧ (putchar fb a 10 t).y = t.y + (character_height + character_margin)) := by
    intro t
    rw [putchar_lf]
    split
    · rename_i h
      exact Or.inr ⟨h, rfl⟩
    · exact Or.inl rfl
  by_cases hp : 32 ≤ c ∧ c ≤ 42
  · rw [putchar_printable fb a c s hp.1 hp.2]
    split
    · exact hlf (after_glyph fb a c s)
    · exact Or.inl rfl
  · by_cases hcr : c = 13
    · subst hcr
      rw [putchar_cr]
      exact Or.inl rfl
    · by_cases hl : c = 10
      · subst hl
        exact hlf s
      · by_cases hbs : c = 8
        · subst hbs
          rw [putchar_bs]
          split <;> exact Or.inl rfl
        · rw [putchar_other fb a c s hp hcr hl hbs]
          exact Or.inl rfl

/-- What a call of `putchar` does to the column: it is reset to 1, advanced by one
cell, moved back by one cell without leaving the range, or left alone. -/
theorem putchar_x_cases (fb : limine_framebuffer) (a : Charmap) (c : Int) (s : State) :
    (putchar fb a c s).x = 1
      ∨ (putchar fb a c s).x = s.x + (character_width a + character_margin)
      ∨ (character_width a + character_margin < s.x
          ∧ (putchar fb a c s).x + (character_width a + character_margin) = s.x)
      ∨ (putchar fb a c s).x = s.x := by
  by_cases hp : 32 ≤ c ∧ c ≤ 42
  · rw [putchar_printable fb a c s hp.1 hp.2]
    split
    · exact Or.inl (putchar_lf_x fb a _)
    · exact Or.inr (Or.inl rfl)
  · by_cases hcr : c = 13
    · subst hcr
      rw [putchar_cr]
      exact Or.inl rfl
    · by_cases hl : c = 10
      · subst hl
        exact Or.inl (putchar_lf_x fb a s)
      · by_cases hbs : c = 8
        · subst hbs
          rw [putchar_bs]
          split
          · rename_i hgt
            refine Or.inr (Or.inr (Or.inl ⟨hgt, ?_⟩))
            show size_sub s.x (character_width a + character_margin)
              + (character_width a + character_margin) = s.x
            rw [size_sub_of_le (Nat.le_of_lt hgt)]
            omega
          · exact Or.inr (Or.inr (Or.inr rfl))
        · rw [putchar_other fb a c s hp hcr hl hbs]
          exact Or.inr (Or.inr (Or.inr rfl))

theorem putchar_cursor_positive (fb : limine_framebuffer) (a : Charmap) (c : Int) (s : State)
    (h : 1 ≤ s.x ∧ 1 ≤ s.y) : 1 ≤ (putchar fb a c s).x ∧ 1 ≤ (putchar fb a c s).y := by
  have hm : character_margin = 4 := rfl
  constructor
  · rcases putchar_x_cases fb a c s with h1 | h1 | ⟨h1, h2⟩ | h1 <;> omega
  · rcases putchar_y_cases fb a c s with h1 | ⟨_, h1⟩ <;> omega

/-- C14: starting from the boot cursor `(1, 1)`, on every surface, after every prefix
of every byte sequence fed through `putchar`, and after every `puts`, the column and
the row are at least 1; no call of `putchar` decreases the row, and the backspace
subtraction is only executed with `character_width + character_margin < x`, so it does
not wrap below zero. -/
theorem cursor_stays_positive (fb : limine_framebuffer) (a : Charmap) :
    (∀ (mem : Nat → Nat) (bytes : List Int) (k : Nat),
        1 ≤ (run fb a (bytes.take k) (State.init mem)).x
          ∧ 1 ≤ (run fb a (bytes.take k) (State.init mem)).y)
      ∧ (∀ (mem : Nat → Nat) (string : List Int) (n : Nat),
          1 ≤ (puts fb a string n (State.init mem)).x
            ∧ 1 ≤ (puts fb a string n (State.init mem)).y)
      ∧ (∀ (c : Int) (s : State), s.y ≤ (putchar fb a c s).y)
      ∧ (∀ s : State, (putchar fb a 8 s).x = s.x
          ∨ (character_width a + character_margin < s.x
              ∧ (putchar fb a 8 s).x = s.x - (character_width a + character_margin)
              ∧ 1 ≤ (putchar fb a 8 s).x)) := by
  refine ⟨fun mem bytes k => ?_, fun mem string n => ?_, fun c s => ?_, fun s => ?_⟩
  · exact run_preserves fb a (fun s => 1 ≤ s.x ∧ 1 ≤ s.y) (putchar_cursor_positive fb a)
      (bytes.take k) (State.init mem) ⟨Nat.le_refl 1, Nat.le_refl 1⟩
  · exact puts_loop_preserves fb a (fun s => 1 ≤ s.x ∧ 1 ≤ s.y) (putchar_cursor_positive fb a)
      string n n 0 (State.init mem) ⟨Nat.le_refl 1, Nat.le_refl 1⟩
  · rcases putchar_y_cases fb a c s with h1 | ⟨_, h1⟩ <;> omega
  · rw [putchar_bs]
    split
    · rename_i hgt
      refine Or.inr ⟨hgt, size_sub_of_le (Nat.le_of_lt hgt), ?_⟩
      show 1 ≤ size_sub s.x (character_width a + character_margin)
      rw [size_sub_of_le (Nat.le_of_lt hgt)]
      omega
    · exact Or.inl rfl

/-! ## C15: the boot message -/

theorem at_cell_print (fb : limine_framebuffer) (a : Charmap) (c : Int) (k : Nat) (s : State)
    (h : at_cell a k s) (hc : 32 ≤ c ∧ c ≤ 42) (hk : k + 1 ≤ 12)
    (hW : 1 + 12 * (character_width a + character_margin) + character_width a ≤ fb.pitch / 4) :
    at_cell a (k + 1) (putchar fb a c s) := by
  have hx : (after_glyph fb a c s).x = s.x + (character_width a + character_margin) := rfl
  have hmul : (k + 1) * (character_width a + character_margin)
      ≤ 12 * (character_width a + character_margin) := Nat.mul_le_mul_right _ hk
  rw [Nat.add_mul, Nat.one_mul] at hmul
  have hput : putchar fb a c s = after_glyph fb a c s :=
    putchar_no_wrap fb a c s hc.1 hc.2 (by rw [hx, h.1]; omega)
  rw [hput]
  refine ⟨?_, h.2⟩
  rw [hx, h.1, Nat.add_mul, Nat.one_mul]
  omega

theorem at_cell_cr (fb : limine_framebuffer) (a : Charmap) (k : Nat) (s : State)
    (h : at_cell a k s) : at_cell a 0 (putchar fb a 13 s) := by
  rw [putchar_cr]
  exact ⟨by simp, h.2⟩

theorem at_cell_bs (fb : limine_framebuffer) (a : Charmap) (k : Nat) (s : State)
    (h : at_cell a (k + 1) s) : at_cell a k (putchar fb a 8 s) := by
  have hx := h.1
  rw [Nat.add_mul, Nat.one_mul] at hx
  have hgt : s.x > character_width a + character_margin := by omega
  rw [putchar_bs, if_pos hgt]
  refine ⟨?_, h.2⟩
  show size_sub s.x (character_width a + character_margin) = _
  rw [size_sub_of_le (Nat.le_of_lt hgt)]
  omega

theorem putchar_plus (fb : limine_framebuffer) (a : Charmap) (s : State) :
    putchar fb a 43 s = s :=
  putchar_other fb a 43 s (by decide) (by decide) (by decide) (by decide)

theorem at_cell_plus (fb : limine_framebuffer) (a : Charmap) (k : Nat) (s : State)
    (h : at_cell a k s) : at_cell a k (putchar fb a 43 s) := by
  rw [putchar_plus]
  exact h

theorem kmain_eq_run (fb : limine_framebuffer) (a : Charmap) (mem : Nat → Nat) :
    kmain fb a mem
      = run fb a [33, 13, 33, 32, 34, 35, 36, 37, 38, 39, 40, 41, 42, 8, 42, 43, 33]
          (State.init mem) := by
  have hstop : is_stop_index message 17 17 := by decide
  exact puts_loop_eq fb a message 17 17 hstop (by decide) 17 0 (State.init mem)
    (by decide) (by decide)

/-- C15: rendering the 17 bytes of `"!\r! \"#$%&'()*\b*+!"` with `puts` from the boot
cursor `(1, 1)` on a surface with `pitch / 4 ≥ 1 + 12 * (cw + m) + cw` ends with column
`1 + 12 * (character_width + character_margin)` and row 1; the byte 43 (`'+'`) changes
no state, so the result is that of the string without it; and the result is a
function of the initial buffer and the surface only. -/
theorem golden_boot_message (fb : limine_framebuffer) (a : Charmap) (mem : Nat → Nat)
    (hW : 1 + 12 * (character_width a + character_margin) + character_width a ≤ fb.pitch / 4) :
    (kmain fb a mem).x = 1 + 12 * (character_width a + character_margin)
      ∧ (kmain fb a mem).y = 1
      ∧ (∀ s : State, putchar fb a 43 s = s)
      ∧ kmain fb a mem
          = run fb a [33, 13, 33, 32, 34, 35, 36, 37, 38, 39, 40, 41, 42, 8, 42, 33]
              (State.init mem)
      ∧ ∀ mem2 : Nat → Nat, (∀ k, mem2 k = mem k) → kmain fb a mem2 = kmain fb a mem := by
  have h0 : at_cell a 0 (State.init mem) := ⟨by simp [State.init], rfl⟩
  have p := fun (c : Int) (hc : 32 ≤ c ∧ c ≤ 42) (k : Nat) (hk : k + 1 ≤ 12) (s : State)
      (h : at_cell a k s) => at_cell_print fb a c k s h hc hk hW
  have h1 := p 33 (by decide) 0 (by decide) _ h0
  have h2 := at_cell_cr fb a _ _ h1
  have h3 := p 33 (by decide) 0 (by decide) _ h2
  have h4 := p 32 (by decide) 1 (by decide) _ h3
  have h5 := p 34 (by decide) 2 (by decide) _ h4
  have h6 := p 35 (by decide) 3 (by decide) _ h5
  have h7 := p 36 (by decide) 4 (by decide) _ h6
  have h8 := p 37 (by decide) 5 (by decide) _ h7
  have h9 := p 38 (by decide) 6 (by decide) _ h8
  have h10 := p 39 (by decide) 7 (by decide) _ h9
  have h11 := p 40 (by decide) 8 (by decide) _ h10
  have h12 := p 41 (by decide) 9 (by decide) _ h11
  have h13 := p 42 (by decide) 10 (by decide) _ h12
  have h14 := at_cell_bs fb a 10 _ h13
  have h15 := p 42 (by decide) 10 (by decide) _ h14
  have h16 := at_cell_plus fb a _ _ h15
  have h17 := p 33 (by decide) 11 (by decide) _ h16
  have hfinal : at_cell a 12 (kmain fb a mem) := by
    rw [kmain_eq_run]
    exact h17
  refine ⟨hfinal.1, hfinal.2, putchar_plus fb a, ?_, fun mem2 hmem => ?_⟩
  · rw [kmain_eq_run]
    have hsplit : ([33, 13, 33, 32, 34, 35, 36, 37, 38, 39, 40, 41, 42, 8, 42, 43, 33] : List Int)
        = [33, 13, 33, 32, 34, 35, 36, 37, 38, 39, 40, 41, 42, 8, 42] ++ [43, 33] := rfl
    have hsplit2 : ([33, 13, 33, 32, 34, 35, 36, 37, 38, 39, 40, 41, 42, 8, 42, 33] : List Int)
        = [33, 13, 33, 32, 34, 35, 36, 37, 38, 39, 40, 41, 42, 8, 42] ++ [33] := rfl
    rw [hsplit, hsplit2, run_append, run_append]
    show putchar fb a 33 (putchar fb a 43 _) = putchar fb a 33 _
    rw [putchar_plus]
  · have : mem2 = mem := funext hmem
    rw [this]

/-- C15, witness: the 2 x 20 atlas (`cw + m = 6`) on a surface 80 pixels wide. -/
theorem golden_boot_message_witness :
    (kmain (limine_framebuffer.mk 320 100) dot_atlas (fun _ => 0)).x
        = 1 + 12 * (character_width dot_atlas + character_margin)
      ∧ (kmain (limine_framebuffer.mk 320 100) dot_atlas (fun _ => 0)).y = 1
      ∧ (∀ s : State, putchar (limine_framebuffer.mk 320 100) dot_atlas 43 s = s)
      ∧ kmain (limine_framebuffer.mk 320 100) dot_atlas (fun _ => 0)
          = run (limine_framebuffer.mk 320 100) dot_atlas
              [33, 13, 33, 32, 34, 35, 36, 37, 38, 39, 40, 41, 42, 8, 42, 33]
              (State.init (fun _ => 0))
      ∧ ∀ mem2 : Nat → Nat, (∀ k, mem2 k = (fun _ => 0) k) →
          kmain (limine_framebuffer.mk 320 100) dot_atlas mem2
            = kmain (limine_framebuffer.mk 320 100) dot_atlas (fun _ => 0) :=
  golden_boot_message (limine_framebuffer.mk 320 100) dot_atlas (fun _ => 0) (by decide)

/-! ## C16: glyph writes stay inside the surface -/

theorem putchar_row_fits (fb : limine_framebuffer) (a : Charmap) (c : Int) (s : State)
    (h : row_fits fb s) : row_fits fb (putchar fb a c s) := by
  have hch : character_height = 20 := rfl
  have hm : character_margin = 4 := rfl
  rcases putchar_y_cases fb a c s with h1 | ⟨hroom, h1⟩
  · unfold row_fits
    rw [h1]
    exact h
  · refine Or.inr ?_
    rw [h1]
    omega

theorem reachable_row_fits (fb : limine_framebuffer) (a : Charmap) (s : State)
    (h : Reachable fb a s) : row_fits fb s := by
  rcases h with ⟨mem, bytes, rfl⟩
  exact run_preserves fb a (row_fits fb) (putchar_row_fits fb a) bytes _ (Or.inl rfl)

/-- C16: on a surface with `H ≥ 1 + character_height` and `W = pitch / 4 ≥ 1 +
character_width`, every state reachable from the boot cursor satisfies the two
invariants (column 1 or `x + character_width ≤ W`; row 1 or `y + character_height < H`),
every pixel `(x + j, y + i)` of the cell at its cursor has column `x + j < W`, row
`y + i < H` and flat index `(y + i) * W + x + j < W * H`, and every cell of the pixel
memory that the glyph loops change for a supported character lies below `W * H`. -/
theorem glyph_writes_inside_surface (fb : limine_framebuffer) (a : Charmap) (s : State)
    (hH : 1 + character_height ≤ fb.height) (hW : 1 + character_width a ≤ fb.pitch / 4)
    (hs : Reachable fb a s) :
    (s.x = 1 ∨ s.x + character_width a ≤ fb.pitch / 4)
      ∧ (s.y = 1 ∨ s.y + character_height < fb.height)
      ∧ (∀ i j, i < character_height → j < character_width a →
          s.x + j < fb.pitch / 4 ∧ s.y + i < fb.height
            ∧ (s.y + i) * (fb.pitch / 4) + s.x + j < fb.pitch / 4 * fb.height)
      ∧ ∀ (c : Int) (k : Nat), 32 ≤ c → c ≤ 42 → draw_glyph fb a c s k ≠ s.mem k →
          k < fb.pitch / 4 * fb.height := by
  have hcol := reachable_column_fits fb a s hs
  have hrow := reachable_row_fits fb a s hs
  have hin : ∀ i j, i < character_height → j < character_width a →
      s.x + j < fb.pitch / 4 ∧ s.y + i < fb.height
        ∧ (s.y + i) * (fb.pitch / 4) + s.x + j < fb.pitch / 4 * fb.height := by
    intro i j hi hj
    have hx : s.x + j < fb.pitch / 4 := by
      rcases hcol with h | h <;> omega
    have hy : s.y + i < fb.height := by
      rcases hrow with h | h <;> omega
    refine ⟨hx, hy, ?_⟩
    have hmul : (s.y + i + 1) * (fb.pitch / 4) ≤ fb.height * (fb.pitch / 4) :=
      Nat.mul_le_mul_right _ hy
    rw [Nat.add_mul, Nat.one_mul, Nat.mul_comm fb.height] at hmul
    omega
  refine ⟨hcol, hrow, hin, fun c k _ _ hne => ?_⟩
  by_contra hout
  apply hne
  refine draw_glyph_frame fb a c s k (fun i j hi hj heq => hout ?_)
  have := (hin i j hi hj).2.2
  omega

/-- C16, witness: the state after two glyphs on the 20-pixel-wide surface. -/
theorem glyph_writes_inside_surface_witness :
    ((run wide_fb dot_atlas [33, 33] (State.init (fun _ => 0))).x = 1
        ∨ (run wide_fb dot_atlas [33, 33] (State.init (fun _ => 0))).x
            + character_width dot_atlas ≤ wide_fb.pitch / 4)
      ∧ ((run wide_fb dot_atlas [33, 33] (State.init (fun _ => 0))).y = 1
        ∨ (run wide_fb dot_atlas [33, 33] (State.init (fun _ => 0))).y + character_height
            < wide_fb.height)
      ∧ (∀ i j, i < character_height → j < character_width dot_atlas →
          (run wide_fb dot_atlas [33, 33] (State.init (fun _ => 0))).x + j < wide_fb.pitch / 4
            ∧ (run wide_fb dot_atlas [33, 33] (State.init (fun _ => 0))).y + i < wide_fb.height
            ∧ ((run wide_fb dot_atlas [33, 33] (State.init (fun _ => 0))).y + i)
                  * (wide_fb.pitch / 4)
                + (run wide_fb dot_atlas [33, 33] (State.init (fun _ => 0))).x + j
                < wide_fb.pitch / 4 * wide_fb.height)
      ∧ ∀ (c : Int) (k : Nat), 32 ≤ c → c ≤ 42 →
          draw_glyph wide_fb dot_atlas c (run wide_fb dot_atlas [33, 33] (State.init (fun _ => 0))) k
            ≠ (run wide_fb dot_atlas [33, 33] (State.init (fun _ => 0))).mem k →
          k < wide_fb.pitch / 4 * wide_fb.height :=
  glyph_writes_inside_surface wide_fb dot_atlas _ (by decide) (by decide)
    ⟨fun _ => 0, [33, 33], rfl⟩

/-! ## C17: the reads of the scroll copy -/

/-- C17 fails on the code: on the surface of 46 rows (`W = 1`, so `W * H = 46` cells)
the state after one `'\n'` from the boot cursor is reachable with row 25, the next
`'\n'` takes the scroll branch, and its copy loop, at `i = 23 < (y - 1) * W = 24`, reads
the cell `23 + W * 24 = 47`, which lies outside the surface: over the pixel memory in
which cell `k` holds `k`, cell 23 ends with the value 47. -/
theorem scroll_reads_past_surface :
    Reachable short_fb dot_atlas (putchar short_fb dot_atlas 10 (State.init (fun k => k)))
      ∧ 1 ≤ short_fb.pitch / 4
      ∧ ¬ ((putchar short_fb dot_atlas 10 (State.init (fun k => k))).y + character_height * 2
            + character_margin < short_fb.height)
      ∧ 23 < ((putchar short_fb dot_atlas 10 (State.init (fun k => k))).y - 1)
            * (short_fb.pitch / 4)
      ∧ ¬ (23 + short_fb.pitch / 4 * (character_height + character_margin)
            < short_fb.pitch / 4 * short_fb.height)
      ∧ (putchar short_fb dot_atlas 10
            (putchar short_fb dot_atlas 10 (State.init (fun k => k)))).mem 23 = 47 := by
  have hroom : (State.init (fun k => k)).y + character_height * 2 + character_margin
      < short_fb.height := by decide
  have hs1 : putchar short_fb dot_atlas 10 (State.init (fun k => k))
      = { x := 1, y := 25, mem := fun k => k } := by
    rw [putchar_lf, if_pos hroom]
    rfl
  refine ⟨⟨fun k => k, [10], rfl⟩, by decide, ?_, ?_, by decide, ?_⟩
  · rw [hs1]
    decide
  · rw [hs1]
    decide
  · have hfull : ¬ ((State.mk 1 25 (fun k => k)).y + character_height * 2 + character_margin
        < short_fb.height) := by decide
    rw [hs1, putchar_lf, if_neg hfull]
    dsimp only
    rw [scroll_copy_apply, size_sub_of_le (by decide)]
    decide

/-! ## C18: atlas lookups -/

theorem character_width_pos_native (a : Charmap) (h : 0 < character_width a) :
    0 < a.CHARACTER_HEIGHT ∧ 0 < a.CHARACTER_WIDTH := by
  unfold character_width at h
  constructor
  · by_contra h0
    have : a.CHARACTER_HEIGHT = 0 := by omega
    rw [this, Nat.div_zero] at h
    omega
  · by_contra h0
    have : a.CHARACTER_WIDTH = 0 := by omega
    rw [this, Nat.mul_zero, Nat.zero_div] at h
    omega

/-- C18: for every supported code `c` in `32..42` the glyph index `c - 32` lies in
`0..10`, and for every `i < character_height` and `j < character_width` the source row
`i * NH / character_height` is `< NH`, the source column `j * NW / character_width` is
`< NW`, the sample index `(i * NH / character_height) * NW + j * NW / character_width`
is `< NW * NH`, and the divisors `character_height`, `character_width` and
`CHARACTER_HEIGHT` are nonzero; when `character_width = 0` the glyph loops store
nothing, so the index expression is not evaluated. -/
theorem atlas_lookups_in_range (a : Charmap) :
    (∀ (c : Int) (i j : Nat), 32 ≤ c → c ≤ 42 → i < character_height → j < character_width a →
        0 ≤ c - 32 ∧ c - 32 ≤ 10 ∧ (c - 32).toNat ≤ 10
          ∧ i * a.CHARACTER_HEIGHT / character_height < a.CHARACTER_HEIGHT
          ∧ j * a.CHARACTER_WIDTH / character_width a < a.CHARACTER_WIDTH
          ∧ (i * a.CHARACTER_HEIGHT / character_height) * a.CHARACTER_WIDTH
              + j * a.CHARACTER_WIDTH / character_width a
              < a.CHARACTER_WIDTH * a.CHARACTER_HEIGHT
          ∧ character_height ≠ 0 ∧ character_width a ≠ 0 ∧ a.CHARACTER_HEIGHT ≠ 0)
      ∧ (character_width a = 0 →
          ∀ (fb : limine_framebuffer) (c : Int) (s : State), draw_glyph fb a c s = s.mem) := by
  constructor
  · intro c i j hc1 hc2 hi hj
    have hcw : 0 < character_width a := by omega
    have hnat := character_width_pos_native a hcw
    have hrow : i * a.CHARACTER_HEIGHT / character_height < a.CHARACTER_HEIGHT := by
      apply Nat.div_lt_of_lt_mul
      exact Nat.mul_lt_mul_of_pos_right hi hnat.1
    have hcol : j * a.CHARACTER_WIDTH / character_width a < a.CHARACTER_WIDTH := by
      apply Nat.div_lt_of_lt_mul
      exact Nat.mul_lt_mul_of_pos_right hj hnat.2
    refine ⟨by omega, by omega, by omega, hrow, hcol, ?_, by decide, by omega, by omega⟩
    have hmul : (i * a.CHARACTER_HEIGHT / character_height + 1) * a.CHARACTER_WIDTH
        ≤ a.CHARACTER_HEIGHT * a.CHARACTER_WIDTH := Nat.mul_le_mul_right _ hrow
    rw [Nat.add_mul, Nat.one_mul, Nat.mul_comm a.CHARACTER_HEIGHT] at hmul
    omega
  · intro h0 fb c s
    rw [draw_glyph_eq, h0]
    funext k
    exact loop2_store_frame _ _ character_height 0 s.mem k (fun i j _ hj => absurd hj (by omega))

/-- C18, witness: the 2 x 20 atlas, code 42 and the last pixel `(19, 1)` of the cell. -/
theorem atlas_lookups_in_range_witness :
    (0 : Int) ≤ 42 - 32 ∧ (42 : Int) - 32 ≤ 10 ∧ ((42 : Int) - 32).toNat ≤ 10
      ∧ 19 * dot_atlas.CHARACTER_HEIGHT / character_height < dot_atlas.CHARACTER_HEIGHT
      ∧ 1 * dot_atlas.CHARACTER_WIDTH / character_width dot_atlas < dot_atlas.CHARACTER_WIDTH
      ∧ (19 * dot_atlas.CHARACTER_HEIGHT / character_height) * dot_atlas.CHARACTER_WIDTH
          + 1 * dot_atlas.CHARACTER_WIDTH / character_width dot_atlas
          < dot_atlas.CHARACTER_WIDTH * dot_atlas.CHARACTER_HEIGHT
      ∧ character_height ≠ 0 ∧ character_width dot_atlas ≠ 0
      ∧ dot_atlas.CHARACTER_HEIGHT ≠ 0 :=
  (atlas_lookups_in_range dot_atlas).1 42 19 1 (by decide) (by decide) (by decide) (by decide)

/-! ## C19: the one-line surface -/

theorem putchar_keeps_first_row (fb : limine_framebuffer) (a : Charmap)
    (hH : fb.height ≤ 1 + 2 * character_height + character_margin) (c : Int) (s : State)
    (h : s.y = 1) : (putchar fb a c s).y = 1 := by
  rcases putchar_y_cases fb a c s with h1 | ⟨hroom, _⟩
  · rw [h1, h]
  · exfalso
    rw [h] at hroom
    omega

theorem putchar_lf_mem_first_row (fb : limine_framebuffer) (a : Charmap)
    (hH : fb.height ≤ 1 + 2 * character_height + character_margin) (s : State)
    (h : s.y = 1) : (putchar fb a 10 s).mem = s.mem := by
  have hfull : ¬ (s.y + character_height * 2 + character_margin < fb.height) := by
    rw [h]
    omega
  rw [putchar_lf, if_neg hfull]
  show scroll_copy _ (size_sub s.y 1 * (fb.pitch / 4)) s.mem = s.mem
  rw [h, size_sub_of_le (Nat.le_refl 1), Nat.sub_self, Nat.zero_mul]
  rfl

/-- C19: on a surface with `H ≤ 1 + 2 * character_height + character_margin`, for every
byte sequence fed from the boot cursor `(1, 1)` the row stays 1; in every reachable
state the scroll loop bound `(y - 1) * W` is 0 and `putchar('\n')` changes no pixel,
and a supported character, wrapping or not, changes the pixel memory by its glyph
loops only, which draw at row 1. -/
theorem one_line_surface_never_scrolls (fb : limine_framebuffer) (a : Charmap)
    (hH : fb.height ≤ 1 + 2 * character_height + character_margin) :
    (∀ (mem : Nat → Nat) (bytes : List Int), (run fb a bytes (State.init mem)).y = 1)
      ∧ (∀ s : State, Reachable fb a s →
          size_sub s.y 1 * (fb.pitch / 4) = 0 ∧ ∀ k, (putchar fb a 10 s).mem k = s.mem k)
      ∧ ∀ (s : State) (c : Int), Reachable fb a s → 32 ≤ c → c ≤ 42 →
          s.y = 1 ∧ (putchar fb a c s).y = 1
            ∧ ∀ k, (putchar fb a c s).mem k = draw_glyph fb a c s k := by
  have hrun : ∀ (mem : Nat → Nat) (bytes : List Int), (run fb a bytes (State.init mem)).y = 1 :=
    fun mem bytes => run_preserves fb a (fun s => s.y = 1)
      (fun c s h => putchar_keeps_first_row fb a hH c s h) bytes (State.init mem) rfl
  have hreach : ∀ s : State, Reachable fb a s → s.y = 1 := by
    rintro s ⟨mem, bytes, rfl⟩
    exact hrun mem bytes
  refine ⟨hrun, fun s hs => ⟨?_, fun k => ?_⟩, fun s c hs hc1 hc2 => ⟨hreach s hs, ?_, fun k => ?_⟩⟩
  · rw [hreach s hs, size_sub_of_le (Nat.le_refl 1), Nat.sub_self, Nat.zero_mul]
  · rw [putchar_lf_mem_first_row fb a hH s (hreach s hs)]
  · exact putchar_keeps_first_row fb a hH c s (hreach s hs)
  · rw [putchar_printable fb a c s hc1 hc2]
    split
    · rw [putchar_lf_mem_first_row fb a hH (after_glyph fb a c s) (hreach s hs)]
      rfl
    · rfl

/-- C19, witness: the surface 10 rows high. -/
theorem one_line_surface_never_scrolls_witness :
    (∀ (mem : Nat → Nat) (bytes : List Int),
        (run low_fb dot_atlas bytes (State.init mem)).y = 1)
      ∧ (∀ s : State, Reachable low_fb dot_atlas s →
          size_sub s.y 1 * (low_fb.pitch / 4) = 0
            ∧ ∀ k, (putchar low_fb dot_atlas 10 s).mem k = s.mem k)
      ∧ ∀ (s : State) (c : Int), Reachable low_fb dot_atlas s → 32 ≤ c → c ≤ 42 →
          s.y = 1 ∧ (putchar low_fb dot_atlas c s).y = 1
            ∧ ∀ k, (putchar low_fb dot_atlas c s).mem k = draw_glyph low_fb dot_atlas c s k :=
  one_line_surface_never_scrolls low_fb dot_atlas (by decide)

/-! ## C20: `memmove` -/

/-- The ascending copy, used when the source lies above the destination. -/
theorem memmove_up_apply (dest src : Nat) (h : dest < src) (mem : Nat → Nat) (n p : Nat) :
    loop (fun i m => store m (dest + i) (m (src + i))) n mem p
      = if dest ≤ p ∧ p < dest + n then mem (src + (p - dest)) else mem p := by
  induction n generalizing p with
  | zero =>
    have : ¬ (dest ≤ p ∧ p < dest + 0) := by omega
    rw [if_neg this]
    rfl
  | succ n ih =>
    show store (loop (fun i m => store m (dest + i) (m (src + i))) n mem) (dest + n)
        (loop (fun i m => store m (dest + i) (m (src + i))) n mem (src + n)) p = _
    have hsrc : loop (fun i m => store m (dest + i) (m (src + i))) n mem (src + n)
        = mem (src + n) := by
      have hout : ¬ (dest ≤ src + n ∧ src + n < dest + n) := by omega
      rw [ih, if_neg hout]
    rw [hsrc]
    clear hsrc
    by_cases hp : p = dest + n
    · subst hp
      have hin : dest ≤ dest + n ∧ dest + n < dest + (n + 1) := by omega
      rw [store_same, if_pos hin]
      congr 1
      omega
    · rw [store_other _ _ hp, ih]
      by_cases hin : dest ≤ p ∧ p < dest + n
      · have hin2 : dest ≤ p ∧ p < dest + (n + 1) := by omega
        rw [if_pos hin, if_pos hin2]
      · have hin2 : ¬ (dest ≤ p ∧ p < dest + (n + 1)) := by omega
        rw [if_neg hin, if_neg hin2]

/-- The descending copy, used when the source lies below the destination. -/
theorem memmove_down_apply (dest src : Nat) (h : src < dest) (n : Nat) :
    ∀ (mem : Nat → Nat) (p : Nat),
      loop_down (fun i m => store m (dest + size_sub i 1) (m (src + size_sub i 1))) n mem p
        = if dest ≤ p ∧ p < dest + n then mem (src + (p - dest)) else mem p := by
  induction n with
  | zero =>
    intro mem p
    have : ¬ (dest ≤ p ∧ p < dest + 0) := by omega
    rw [if_neg this]
    rfl
  | succ n ih =>
    intro mem p
    have hsub : size_sub (n + 1) 1 = n := by
      rw [size_sub_of_le (by omega)]
      omega
    show loop_down (fun i m => store m (dest + size_sub i 1) (m (src + size_sub i 1))) n
        (store mem (dest + size_sub (n + 1) 1) (mem (src + size_sub (n + 1) 1))) p = _
    rw [hsub, ih]
    by_cases hin : dest ≤ p ∧ p < dest + n
    · have hin2 : dest ≤ p ∧ p < dest + (n + 1) := by omega
      have hne : src + (p - dest) ≠ dest + n := by omega
      rw [if_pos hin, if_pos hin2, store_other _ _ hne]
    · rw [if_neg hin]
      by_cases hp : p = dest + n
      · subst hp
        have hin2 : dest ≤ dest + n ∧ dest + n < dest + (n + 1) := by omega
        rw [store_same, if_pos hin2]
        congr 1
        omega
      · have hin2 : ¬ (dest ≤ p ∧ p < dest + (n + 1)) := by omega
        rw [store_other _ _ hp, if_neg hin2]

theorem memmove_apply (dest src n : Nat) (mem : Nat → Nat) (p : Nat) :
    memmove dest src n mem p
      = if dest ≤ p ∧ p < dest + n then mem (src + (p - dest)) else mem p := by
  unfold memmove
  by_cases h1 : src > dest
  · rw [if_pos h1]
    exact memmove_up_apply dest src h1 mem n p
  · rw [if_neg h1]
    by_cases h2 : src < dest
    · rw [if_pos h2]
      exact memmove_down_apply dest src h2 n mem p
    · rw [if_neg h2]
      have heq : src = dest := by omega
      subst heq
      split
      · rename_i hin
        congr 1
        omega
      · rfl

/-- C20: for every byte memory and every `dest`, `src` and `n` (the regions may
overlap), after `memmove(dest, src, n)` every byte `dest + k` with `k < n` holds the
value that byte `src + k` had before the call, every byte outside `[dest, dest + n)` is
unchanged, and the call with `src = dest` changes nothing. -/
theorem memmove_correct (mem : Nat → Nat) (dest src n : Nat) :
    (∀ k, k < n → memmove dest src n mem (dest + k) = mem (src + k))
      ∧ (∀ p, ¬ (dest ≤ p ∧ p < dest + n) → memmove dest src n mem p = mem p)
      ∧ memmove dest dest n mem = mem := by
  refine ⟨fun k hk => ?_, fun p hp => ?_, ?_⟩
  · have hin : dest ≤ dest + k ∧ dest + k < dest + n := by omega
    rw [memmove_apply, if_pos hin]
    congr 1
    omega
  · rw [memmove_apply, if_neg hp]
  · unfold memmove
    rw [if_neg (Nat.lt_irrefl dest), if_neg (Nat.lt_irrefl dest)]

/-! ## C4: line feed without room -/

theorem reachable_cursor_positive (fb : limine_framebuffer) (a : Charmap) (s : State)
    (h : Reachable fb a s) : 1 ≤ s.x ∧ 1 ≤ s.y := by
  rcases h with ⟨mem, bytes, rfl⟩
  exact run_preserves fb a (fun s => 1 ≤ s.x ∧ 1 ≤ s.y) (putchar_cursor_positive fb a)
    bytes (State.init mem) ⟨Nat.le_refl 1, Nat.le_refl 1⟩

/-- C4, as stated, fails at the boot cursor of a surface with room for one text line
only (8 pixels wide, 30 rows high), over the pixel memory in which cell `k` holds `k`:
`putchar('\n')` takes the scroll branch with the copy bound `(y - 1) * W = 0`, so no
pixel changes, no row lies one text line above a row of the cursor line, and the
content of a pixel of that line is found in no other cell: the bottom text line is
not duplicated one line higher. -/
theorem scroll_on_first_line_duplicates_nothing :
    Reachable one_line_fb dot_atlas (State.init (fun k => k))
      ∧ one_line_fb.height
          ≤ (State.init (fun k => k)).y + 2 * character_height + character_margin
      ∧ ((State.init (fun k => k)).y - 1) * (one_line_fb.pitch / 4) = 0
      ∧ (∀ k, (putchar one_line_fb dot_atlas 10 (State.init (fun k => k))).mem k
          = (State.init (fun k => k)).mem k)
      ∧ (∀ r, r < character_height →
          ¬ ∃ row : Nat, row + (character_height + character_margin)
              = (State.init (fun k => k)).y + r)
      ∧ ∀ r k p, r < character_height → k < one_line_fb.pitch / 4 →
          p ≠ ((State.init (fun k => k)).y + r) * (one_line_fb.pitch / 4) + k →
          (putchar one_line_fb dot_atlas 10 (State.init (fun k => k))).mem p
            ≠ (State.init (fun k => k)).mem
                (((State.init (fun k => k)).y + r) * (one_line_fb.pitch / 4) + k) := by
  have hmem : (putchar one_line_fb dot_atlas 10 (State.init (fun k => k))).mem
      = (State.init (fun k => k)).mem :=
    putchar_lf_mem_first_row one_line_fb dot_atlas (by decide) _ rfl
  have hch : character_height = 20 := rfl
  have hm : character_margin = 4 := rfl
  have hy : (State.init (fun k => k)).y = 1 := rfl
  refine ⟨⟨fun k => k, [], rfl⟩, by decide, by decide, fun k => by rw [hmem], ?_, ?_⟩
  · rintro r hr ⟨row, hrow⟩
    rw [hy, hch, hm] at hrow
    rw [hch] at hr
    omega
  · intro r k p _ _ hp
    rw [hmem]
    exact hp

/-- C4 (amended): for every state reachable from the boot cursor `(1, 1)` with
`y + 2 * character_height + character_margin ≥ height`, `putchar('\n')` leaves the row
unchanged, sets the column to 1, and produces a buffer in which every flat index
`i < (y - 1) * W` holds the old value of index `i + W * (character_height +
character_margin)` and every index `i ≥ (y - 1) * W` holds its old value, `(y - 1) * W`
being the bound the code computes (no wrap below zero).  In particular the text line
at the cursor is not cleared: it keeps its old pixels, which are duplicated one line
higher when a text line lies above the cursor (`y ≥ character_height +
character_margin`); on the first line (`y = 1`) nothing is copied. -/
theorem putchar_lf_scrolls (fb : limine_framebuffer) (a : Charmap) (s : State)
    (hs : Reachable fb a s)
    (h : fb.height ≤ s.y + 2 * character_height + character_margin) :
    (putchar fb a 10 s).y = s.y
      ∧ (putchar fb a 10 s).x = 1
      ∧ size_sub s.y 1 * (fb.pitch / 4) = (s.y - 1) * (fb.pitch / 4)
      ∧ (∀ i, i < (s.y - 1) * (fb.pitch / 4) →
          (putchar fb a 10 s).mem i
            = s.mem (i + fb.pitch / 4 * (character_height + character_margin)))
      ∧ (∀ i, (s.y - 1) * (fb.pitch / 4) ≤ i → (putchar fb a 10 s).mem i = s.mem i)
      ∧ (∀ r k, r < character_height → k < fb.pitch / 4 →
          (putchar fb a 10 s).mem ((s.y + r) * (fb.pitch / 4) + k)
              = s.mem ((s.y + r) * (fb.pitch / 4) + k)
            ∧ (character_height + character_margin ≤ s.y →
                (putchar fb a 10 s).mem
                    ((s.y - (character_height + character_margin) + r) * (fb.pitch / 4) + k)
                  = s.mem ((s.y + r) * (fb.pitch / 4) + k)))
      ∧ (s.y = 1 → ∀ i, (putchar fb a 10 s).mem i = s.mem i) := by
  have hy : 1 ≤ s.y := (reachable_cursor_positive fb a s hs).2
  have heff := putchar_lf_scroll_effect fb a s hy h
  refine ⟨heff.1, heff.2.1, by rw [size_sub_of_le hy], heff.2.2.1, heff.2.2.2.1,
    heff.2.2.2.2, fun h1 i => ?_⟩
  refine heff.2.2.2.1 i ?_
  rw [h1, Nat.sub_self, Nat.zero_mul]
  exact Nat.zero_le i

theorem ramp_row25_reachable : Reachable two_line_fb dot_atlas ramp_row25 := by
  refine ⟨fun k => k, [10], ?_⟩
  have hroom : (State.init (fun k => k)).y + character_height * 2 + character_margin
      < two_line_fb.height := by decide
  show ramp_row25 = putchar two_line_fb dot_atlas 10 (State.init (fun k => k))
  rw [putchar_lf, if_pos hroom]
  rfl

/-- C4 (amended), witness: the line feed on the second text line (row 25, reached by
one `'\n'` from the boot cursor) of the surface 60 rows high. -/
theorem putchar_lf_scrolls_witness :
    (putchar two_line_fb dot_atlas 10 ramp_row25).y = ramp_row25.y
      ∧ (putchar two_line_fb dot_atlas 10 ramp_row25).x = 1
      ∧ size_sub ramp_row25.y 1 * (two_line_fb.pitch / 4)
          = (ramp_row25.y - 1) * (two_line_fb.pitch / 4)
      ∧ (∀ i, i < (ramp_row25.y - 1) * (two_line_fb.pitch / 4) →
          (putchar two_line_fb dot_atlas 10 ramp_row25).mem i
            = ramp_row25.mem (i + two_line_fb.pitch / 4 * (character_height + character_margin)))
      ∧ (∀ i, (ramp_row25.y - 1) * (two_line_fb.pitch / 4) ≤ i →
          (putchar two_line_fb dot_atlas 10 ramp_row25).mem i = ramp_row25.mem i)
      ∧ (∀ r k, r < character_height → k < two_line_fb.pitch / 4 →
          (putchar two_line_fb dot_atlas 10 ramp_row25).mem
                ((ramp_row25.y + r) * (two_line_fb.pitch / 4) + k)
              = ramp_row25.mem ((ramp_row25.y + r) * (two_line_fb.pitch / 4) + k)
            ∧ (character_height + character_margin ≤ ramp_row25.y →
                (putchar two_line_fb dot_atlas 10 ramp_row25).mem
                    ((ramp_row25.y - (character_height + character_margin) + r)
                      * (two_line_fb.pitch / 4) + k)
                  = ramp_row25.mem ((ramp_row25.y + r) * (two_line_fb.pitch / 4) + k)))
      ∧ (ramp_row25.y = 1 →
          ∀ i, (putchar two_line_fb dot_atlas 10 ramp_row25).mem i = ramp_row25.mem i) :=
  putchar_lf_scrolls two_line_fb dot_atlas ramp_row25 ramp_row25_reachable (by decide)

end JoyOS
